import Mathlib

/-!
# Newton's method root finder (`main.cpp`)

A shallow embedding of the numerical core of `main.cpp`: `derivative`,
`evaluate`, `get_roots` and `newton_method`, together with the two
configuration fields of the global `Data` object they read.

Modelling choices.

* `double` is modelled by an arbitrary linearly ordered field `R` (exact
  arithmetic: no rounding, no infinities, no NaN).  Every definition is
  computable and runs at `R = ℚ`; the theorems hold at `R = ℝ` as well.
* `std::sqrt` is library code; it is a parameter `sqrt : R → R` of
  `get_roots`, and theorems state as hypotheses what they need from it.
* `std::vector::at` is bounds checked and throws; it is modelled by
  `vector_at`, which returns `Except.error Error.out_of_range`.  All
  functions therefore live in `Except Error`.
* A counted loop `for (int i = a; i < b; i++)` is `forLoop body a (b - a)`.
* The normalization loop of `process_input` is `strip_trailing_zeros`; dereferencing
  `end() - 1` of an empty vector is `Except.error Fault.read_outside_vector`.
* `get_roots_depth` and `newton_iterate_count` count the nested calls of `get_roots`
  and the iterations of the inner loop of `newton_method`.
* The verbose diagnostics written to `std::cout` are not part of the model.
-/

namespace NewtonsMethod

/-- The only exception the core can raise: `std::out_of_range` from `.at`. -/
inductive Error where
  | out_of_range
  deriving DecidableEq

/-- The fields of `struct Data` that the numerical functions read. -/
structure Data (R : Type) where
  acceptable_error : R
  max_iterations : Int

/-- State of the inner loop of `newton_method`: the locals `lastx`, `y`, `x`. -/
structure NewtonState (R : Type) where
  lastx : R
  y : R
  x : R

/-- What goes wrong when an iterator is dereferenced although it does not point at an
element of its vector: the read is outside the vector (undefined behaviour in C++). -/
inductive Fault where
  | read_outside_vector
  deriving DecidableEq

section Defs

variable {R : Type} [LinearOrderedField R]

/-- Default member initialisers: `acceptable_error = 0.0001`, `max_iterations = 0xFFFF`. -/
def Data.default : Data R := ⟨1 / 10000, 0xFFFF⟩

/-- Bounds-checked access `v.at(i)`. -/
def vector_at {α : Type} (v : List α) (i : Nat) : Except Error α :=
  match v.get? i with
  | some a => Except.ok a
  | none => Except.error Error.out_of_range

/-- Counted loop: `forLoop body i n s` runs `body i`, `body (i+1)`, …, `body (i+n-1)`
on the state, stopping at the first error. -/
def forLoop {σ : Type} (body : Nat → σ → Except Error σ) : Nat → Nat → σ → Except Error σ
  | _, 0, s => pure s
  | i, n + 1, s => body i s >>= forLoop body (i + 1) n

/-- Source: `derivative`.  `for(int i = 1; i < f.size(); i++) d->push_back(i * f.at(i));` -/
def derivative (f : List R) : Except Error (List R) :=
  forLoop (fun i d => do
    let c ← vector_at f i
    pure (d ++ [(i : R) * c])) 1 (f.length - 1) []

/-- Source: `evaluate`.
`for(int i = 0; i < f.size(); i++) result += std::pow(x, i) * f.at(i);` -/
def evaluate (f : List R) (x : R) : Except Error R :=
  forLoop (fun i result => do
    let c ← vector_at f i
    pure (result + x ^ i * c)) 0 f.length 0

/-- The inner loop of `newton_method`,
`for(int i = 0; y != 0 && i < data.max_iterations; i++)`, with `n` the number of
iterations still allowed by the counter. -/
def newton_iterate (f d : List R) : Nat → NewtonState R → Except Error (NewtonState R)
  | 0, s => pure s
  | n + 1, s =>
    if s.y ≠ 0 then do
      let y ← evaluate f s.x
      let dx ← evaluate d s.x
      newton_iterate f d n ⟨s.x, y, s.x - y / dx⟩
    else pure s

/-- The body of the outer loop of `newton_method` for one guess: the first step, the
inner loop, and the acceptance test `std::find(...) == roots->end() && fabs(y) < error`. -/
def newton_guess (cfg : Data R) (f d : List R) (roots : List R) (guess : R) :
    Except Error (List R) := do
  let lastx := guess
  let y ← evaluate f lastx
  let dx ← evaluate d lastx
  let x := lastx - y / dx
  let s ← newton_iterate f d cfg.max_iterations.toNat ⟨lastx, y, x⟩
  if s.x ∉ roots ∧ |s.y| < cfg.acceptable_error then pure (roots ++ [s.x]) else pure roots

/-- Source: `newton_method`. -/
def newton_method (cfg : Data R) (f d guesses : List R) : Except Error (List R) :=
  guesses.foldlM (newton_guess cfg f d) []

/-- The guess construction of `get_roots` for at least two extrema: the guess before the
first extremum, the midpoints, the guess after the last. -/
def make_guesses (extrema : List R) : Except Error (List R) := do
  let e0 ← vector_at extrema 0
  let e1 ← vector_at extrema 1
  let guesses := [1 / 2 * (3 * e0 - e1)]
  let guesses ← forLoop (fun i g => do
    let a ← vector_at extrema i
    let b ← vector_at extrema (i + 1)
    pure (g ++ [1 / 2 * (a + b)])) 0 (extrema.length - 1) guesses
  let el ← vector_at extrema (extrema.length - 1)
  let ep ← vector_at extrema (extrema.length - 2)
  pure (guesses ++ [1 / 2 * (3 * el - ep)])

/-- The length of a list produced by the loop of `derivative`. -/
theorem forLoop_push_length {α : Type} (g : Nat → Except Error α) :
    ∀ (n i : Nat) (d r : List α),
      forLoop (fun i d => do let c ← g i; pure (d ++ [c])) i n d = Except.ok r →
      r.length = d.length + n := by
  intro n
  induction n with
  | zero =>
    intro i d r h
    simp only [forLoop, pure, Except.pure] at h
    cases h
    rfl
  | succ n ih =>
    intro i d r h
    simp only [forLoop] at h
    cases hg : g i with
    | error e => simp [hg, bind, Except.bind] at h
    | ok c =>
      simp only [hg, bind, Except.bind, pure, Except.pure] at h
      have := ih (i + 1) (d ++ [c]) r h
      simp at this
      omega

/-- The derivative is shorter than a non-empty polynomial. -/
theorem derivative_length_lt (f d : List R) (h : derivative f = Except.ok d)
    (hf : 2 ≤ f.length) : d.length < f.length := by
  have := forLoop_push_length (fun i => (vector_at f i).map (fun c => (i : R) * c))
    (f.length - 1) 1 [] d
  have h2 : d.length = ([] : List R).length + (f.length - 1) := by
    apply this
    rw [← h]
    unfold derivative
    congr 1
    funext i d
    cases vector_at f i <;> rfl
  simp at h2
  omega

/-- Source: `get_roots`. -/
def get_roots (sqrt : R → R) (cfg : Data R) (f : List R) : Except Error (List R) :=
  if f.length < 2 then pure []
  else if f.length = 2 then do
    let a0 ← vector_at f 0
    let a1 ← vector_at f 1
    pure [-a0 / a1]
  else if f.length = 3 then do
    let a0 ← vector_at f 0
    let a1 ← vector_at f 1
    let a2 ← vector_at f 2
    let delta := a1 * a1 - 4 * a2 * a0
    if delta < 0 then pure []
    else
      let s := sqrt delta
      if delta ≠ 0 then pure [(-a1 - s) / (2 * a2), (-a1 + s) / (2 * a2)]
      else pure [(-a1 - s) / (2 * a2)]
  else
    match h : derivative f with
    | Except.error e => Except.error e
    | Except.ok dfodx => do
      let extrema ← get_roots sqrt cfg dfodx
      if extrema.isEmpty then newton_method cfg f dfodx [0]
      else if extrema.length = 1 then do
        let e0 ← vector_at extrema 0
        newton_method cfg f dfodx [e0 - 1, e0 + 1]
      else do
        let guesses ← make_guesses extrema
        newton_method cfg f dfodx guesses
termination_by f.length
decreasing_by
  exact derivative_length_lt f dfodx h (by omega)

/-- Specification of the evaluator: the sum of `f[i] · x ^ i` over all indices of `f`. -/
def polySum (f : List R) (x : R) : R :=
  ∑ i in Finset.range f.length, f.getD i 0 * x ^ i

/-- Value computed by `newton_iterate`, with the evaluations replaced by `polySum`. -/
def newton_iterate_val (f d : List R) : Nat → NewtonState R → NewtonState R
  | 0, s => s
  | n + 1, s =>
    if s.y ≠ 0 then
      newton_iterate_val f d n
        ⟨s.x, polySum f s.x, s.x - polySum f s.x / polySum d s.x⟩
    else s

/-- Value computed by `newton_guess`, with the evaluations replaced by `polySum`. -/
def newton_guess_val (cfg : Data R) (f d : List R) (roots : List R) (guess : R) : List R :=
  let s := newton_iterate_val f d cfg.max_iterations.toNat
    ⟨guess, polySum f guess, guess - polySum f guess / polySum d guess⟩
  if s.x ∉ roots ∧ |s.y| < cfg.acceptable_error then roots ++ [s.x] else roots

/-- Seed guesses as the specification words them: `[0]` for no extremum, `[e - 1, e + 1]`
for one extremum `e`, and for `k ≥ 2` extrema the extrapolated point before the first,
the `k - 1` midpoints in order, and the extrapolated point after the last. -/
def seeds_spec : List R → List R
  | [] => [0]
  | [e] => [e - 1, e + 1]
  | E =>
    [1 / 2 * (3 * E.getD 0 0 - E.getD 1 0)]
      ++ (List.range (E.length - 1)).map (fun i => 1 / 2 * (E.getD i 0 + E.getD (i + 1) 0))
      ++ [1 / 2 * (3 * E.getD (E.length - 1) 0 - E.getD (E.length - 2) 0)]

/-- Source: the normalization loop of `process_input`,
`while(!*(data.coefficients.end() - 1)) data.coefficients.pop_back();`
which is reached only with a non-empty vector (an empty one exits the process before).
The condition reads `*(end() - 1)`, the last element; once the vector is empty the
iterator `end() - 1` lies before the storage and the read is outside the vector. -/
def strip_trailing_zeros (c : List R) : Except Fault (List R) :=
  if hc : c = [] then Except.error Fault.read_outside_vector
  else if c.getLast hc = 0 then strip_trailing_zeros c.dropLast
  else Except.ok c
termination_by c.length
decreasing_by
  rw [List.length_dropLast]
  exact Nat.sub_lt (List.length_pos.mpr hc) Nat.one_pos

/-- Number of iterations the inner loop of `newton_method` executes from state `s` when
the counter allows `n` more: the count of loop bodies run by `newton_iterate`. -/
def newton_iterate_count (f d : List R) : Nat → NewtonState R → Nat
  | 0, _ => 0
  | n + 1, s =>
    if s.y ≠ 0 then
      newton_iterate_count f d n
        ⟨s.x, polySum f s.x, s.x - polySum f s.x / polySum d s.x⟩ + 1
    else 0

/-- The locals `(lastx, y, x)` with which the inner loop of `newton_method` ends for one
guess: the first step followed by the loop. -/
def newton_candidate (cfg : Data R) (f d : List R) (guess : R) : NewtonState R :=
  newton_iterate_val f d cfg.max_iterations.toNat
    ⟨guess, polySum f guess, guess - polySum f guess / polySum d guess⟩

/-- Number of nested (recursive) calls of `get_roots` below the call on `f`, following the
case split of `get_roots`: none for fewer than four coefficients, otherwise one more than
for the derivative. -/
def get_roots_depth (f : List R) : Nat :=
  if f.length < 2 then 0
  else if f.length = 2 then 0
  else if f.length = 3 then 0
  else
    match h : derivative f with
    | Except.error _ => 0
    | Except.ok dfodx => get_roots_depth dfodx + 1
termination_by f.length
decreasing_by
  exact derivative_length_lt f dfodx h (by omega)

/-- The arguments of the calls of `get_roots` made while solving `f`: `f` itself, and the
derivative of every argument that has at least four coefficients. -/
inductive Reached (f : List R) : List R → Prop where
  | top : Reached f f
  | nested (g d : List R) : Reached f g → 4 ≤ g.length → derivative g = Except.ok d →
      Reached f d

/-- Newton's sequence as the specification words it: `x_0 = g` and
`x_{j+1} = x_j − f(x_j) / d(x_j)`. -/
def newton_seq (f d : List R) (g : R) : Nat → R
  | 0 => g
  | j + 1 =>
    newton_seq f d g j - polySum f (newton_seq f d g j) / polySum d (newton_seq f d g j)

/-- Removal of the rejected candidates as the specification words it: going through the
per-guess results in order, a result is removed when its tested residual is not below the
tolerance or its value equals an earlier accepted root (`earlier` are the roots accepted
so far); the others are kept, in order. -/
def keep_accepted (tol : R) : List R → List (NewtonState R) → List R
  | _, [] => []
  | earlier, c :: rest =>
    if ¬ (|c.y| < tol) ∨ c.x ∈ earlier then keep_accepted tol earlier rest
    else c.x :: keep_accepted tol (earlier ++ [c.x]) rest

/-- The loop state after `k` iterations along Newton's sequence:
`lastx = x_k`, `y = f(x_k)`, `x = x_{k+1}`. -/
def newton_seq_state (f d : List R) (g : R) (k : Nat) : NewtonState R :=
  ⟨newton_seq f d g k, polySum f (newton_seq f d g k), newton_seq f d g (k + 1)⟩

end Defs

section Lemmas

variable {R : Type} [LinearOrderedField R]

theorem ok_bind {α β : Type} (a : α) (k : α → Except Error β) :
    (Except.ok a >>= k) = k a := rfl

theorem vector_at_of_lt (v : List R) (i : Nat) (h : i < v.length) :
    vector_at v i = Except.ok (v.getD i 0) := by
  unfold vector_at
  rw [List.getD_eq_getElem _ _ h, List.get?_eq_get h]
  rfl

theorem evaluate_loop (f : List R) (x : R) :
    ∀ (n a : Nat) (s : R), a + n ≤ f.length →
      forLoop (fun i result => do
        let c ← vector_at f i
        pure (result + x ^ i * c)) a n s
      = Except.ok (s + ∑ j in Finset.range n, x ^ (a + j) * f.getD (a + j) 0) := by
  intro n
  induction n with
  | zero => intro a s _; simp [forLoop, pure, Except.pure]
  | succ n ih =>
    intro a s h
    rw [forLoop, vector_at_of_lt f a (by omega)]
    simp only [ok_bind]
    show forLoop _ (a + 1) n _ = _
    rw [ih (a + 1) _ (by omega), Finset.sum_range_succ']
    congr 1
    simp only [Nat.add_zero]
    have : ∀ j, a + 1 + j = a + (j + 1) := by intro j; omega
    simp only [this]
    ring

theorem evaluate_eq (f : List R) (x : R) :
    evaluate f x = Except.ok (polySum f x) := by
  unfold evaluate polySum
  rw [evaluate_loop f x f.length 0 0 (by omega)]
  congr 1
  rw [zero_add]
  apply Finset.sum_congr rfl
  intro i _
  rw [Nat.zero_add, mul_comm]


theorem derivative_loop (f : List R) :
    ∀ (n a : Nat) (d : List R), a + n ≤ f.length →
      forLoop (fun i d => do
        let c ← vector_at f i
        pure (d ++ [(i : R) * c])) a n d
      = Except.ok (d ++ (List.range n).map (fun j => ((a + j : ℕ) : R) * f.getD (a + j) 0)) := by
  intro n
  induction n with
  | zero => intro a d _; simp [forLoop, pure, Except.pure]
  | succ n ih =>
    intro a d h
    rw [forLoop, vector_at_of_lt f a (by omega)]
    simp only [ok_bind]
    show forLoop _ (a + 1) n _ = _
    rw [ih (a + 1) _ (by omega), List.range_succ_eq_map]
    simp only [List.map_cons, List.map_map, List.append_assoc, List.singleton_append,
      Nat.add_zero]
    congr 3
    apply List.map_congr_left
    intro j _
    simp only [Function.comp, Nat.succ_eq_add_one]
    have : a + 1 + j = a + (j + 1) := by omega
    rw [this]

theorem derivative_eq (f : List R) :
    derivative f = Except.ok
      ((List.range (f.length - 1)).map (fun j => ((j + 1 : ℕ) : R) * f.getD (j + 1) 0)) := by
  unfold derivative
  cases f with
  | nil => rfl
  | cons c t =>
    rw [derivative_loop (c :: t) ((c :: t).length - 1) 1 [] (by simp; omega)]
    simp only [List.nil_append]
    congr 2
    funext j
    rw [Nat.add_comm 1 j]


theorem newton_iterate_eq (f d : List R) :
    ∀ (n : Nat) (s : NewtonState R),
      newton_iterate f d n s = Except.ok (newton_iterate_val f d n s) := by
  intro n
  induction n with
  | zero => intro s; rfl
  | succ n ih =>
    intro s
    rw [newton_iterate, newton_iterate_val]
    by_cases hy : s.y ≠ 0
    · rw [if_pos hy, if_pos hy, evaluate_eq, evaluate_eq]
      simp only [ok_bind]
      exact ih _
    · rw [if_neg hy, if_neg hy]
      rfl

theorem newton_guess_eq (cfg : Data R) (f d roots : List R) (guess : R) :
    newton_guess cfg f d roots guess = Except.ok (newton_guess_val cfg f d roots guess) := by
  simp only [newton_guess, newton_guess_val, evaluate_eq, ok_bind, newton_iterate_eq]
  split <;> rfl

theorem foldlM_guess_eq (cfg : Data R) (f d : List R) :
    ∀ (guesses roots : List R),
      guesses.foldlM (newton_guess cfg f d) roots
        = Except.ok (guesses.foldl (newton_guess_val cfg f d) roots) := by
  intro guesses
  induction guesses with
  | nil => intro roots; rfl
  | cons g gs ih =>
    intro roots
    rw [List.foldlM_cons, newton_guess_eq, ok_bind, ih, List.foldl_cons]

theorem newton_method_eq (cfg : Data R) (f d guesses : List R) :
    newton_method cfg f d guesses
      = Except.ok (guesses.foldl (newton_guess_val cfg f d) []) :=
  foldlM_guess_eq cfg f d guesses []


/-- The list of coefficients that `derivative` returns. -/
theorem derivative_length (f d : List R) (h : derivative f = Except.ok d) :
    d.length = f.length - 1 := by
  rw [derivative_eq] at h
  cases h
  simp

theorem get_roots_small (sqrt : R → R) (cfg : Data R) (f : List R) (h : f.length < 2) :
    get_roots sqrt cfg f = Except.ok [] := by
  rw [get_roots, if_pos h]
  rfl

theorem get_roots_linear (sqrt : R → R) (cfg : Data R) (a0 a1 : R) :
    get_roots sqrt cfg [a0, a1] = Except.ok [-a0 / a1] := by
  rw [get_roots]
  rfl

theorem get_roots_quadratic (sqrt : R → R) (cfg : Data R) (a0 a1 a2 : R) :
    get_roots sqrt cfg [a0, a1, a2] = Except.ok
      (if a1 * a1 - 4 * a2 * a0 < 0 then []
       else if a1 * a1 - 4 * a2 * a0 ≠ 0 then
         [(-a1 - sqrt (a1 * a1 - 4 * a2 * a0)) / (2 * a2),
          (-a1 + sqrt (a1 * a1 - 4 * a2 * a0)) / (2 * a2)]
       else [(-a1 - sqrt (a1 * a1 - 4 * a2 * a0)) / (2 * a2)]) := by
  rw [get_roots]
  simp only [List.length_cons, List.length_nil, vector_at, List.get?, ok_bind]
  split_ifs <;> first | rfl | omega

theorem get_roots_high (sqrt : R → R) (cfg : Data R) (f dfodx : List R)
    (hd : derivative f = Except.ok dfodx) (h : 4 ≤ f.length) :
    get_roots sqrt cfg f =
      (get_roots sqrt cfg dfodx >>= fun extrema =>
        if extrema.isEmpty then newton_method cfg f dfodx [0]
        else if extrema.length = 1 then
          vector_at extrema 0 >>= fun e0 => newton_method cfg f dfodx [e0 - 1, e0 + 1]
        else make_guesses extrema >>= fun guesses => newton_method cfg f dfodx guesses) := by
  rw [get_roots, if_neg (by omega), if_neg (by omega), if_neg (by omega)]
  split
  · rename_i e he
    rw [hd] at he
    cases he
  · rename_i d2 he
    rw [hd] at he
    cases he
    rfl


theorem forLoop_push {α : Type} (body : Nat → List α → Except Error (List α)) (val : Nat → α) :
    ∀ (n a : Nat) (g : List α),
      (∀ i l, a ≤ i → i < a + n → body i l = Except.ok (l ++ [val i])) →
      forLoop body a n g = Except.ok (g ++ (List.range n).map (fun j => val (a + j))) := by
  intro n
  induction n with
  | zero => intro a g _; simp [forLoop, pure, Except.pure]
  | succ n ih =>
    intro a g hb
    rw [forLoop, hb a g (le_refl a) (by omega), ok_bind,
      ih (a + 1) _ (fun i l h1 h2 => hb i l (by omega) (by omega)), List.range_succ_eq_map]
    simp only [List.map_cons, List.map_map, List.append_assoc, List.singleton_append,
      Nat.add_zero]
    congr 3
    apply List.map_congr_left
    intro j _
    simp only [Function.comp, Nat.succ_eq_add_one]
    have : a + 1 + j = a + (j + 1) := by omega
    rw [this]

theorem make_guesses_eq (E : List R) (h : 2 ≤ E.length) :
    make_guesses E = Except.ok
      ([1 / 2 * (3 * E.getD 0 0 - E.getD 1 0)]
        ++ (List.range (E.length - 1)).map (fun i => 1 / 2 * (E.getD i 0 + E.getD (i + 1) 0))
        ++ [1 / 2 * (3 * E.getD (E.length - 1) 0 - E.getD (E.length - 2) 0)]) := by
  unfold make_guesses
  rw [vector_at_of_lt E 0 (by omega), ok_bind, vector_at_of_lt E 1 (by omega), ok_bind]
  dsimp only
  rw [forLoop_push _ (fun i => 1 / 2 * (E.getD i 0 + E.getD (i + 1) 0)) (E.length - 1) 0 _
      (fun i l _ h2 => by
        rw [vector_at_of_lt E i (by omega), ok_bind, vector_at_of_lt E (i + 1) (by omega),
          ok_bind]
        rfl),
    ok_bind, vector_at_of_lt E (E.length - 1) (by omega), ok_bind,
    vector_at_of_lt E (E.length - 2) (by omega), ok_bind]
  simp only [Nat.zero_add]
  rfl

theorem seeds_spec_of_two_le (E : List R) (h : 2 ≤ E.length) :
    seeds_spec E =
      [1 / 2 * (3 * E.getD 0 0 - E.getD 1 0)]
        ++ (List.range (E.length - 1)).map (fun i => 1 / 2 * (E.getD i 0 + E.getD (i + 1) 0))
        ++ [1 / 2 * (3 * E.getD (E.length - 1) 0 - E.getD (E.length - 2) 0)] := by
  match E, h with
  | _ :: _ :: _, _ => rfl

/-- For a polynomial of length at least four, `get_roots` is the Refiner run on the
seeds of the specification. -/
theorem get_roots_high_seeds (sqrt : R → R) (cfg : Data R) (f dfodx E : List R)
    (hd : derivative f = Except.ok dfodx) (h : 4 ≤ f.length)
    (hE : get_roots sqrt cfg dfodx = Except.ok E) :
    get_roots sqrt cfg f = newton_method cfg f dfodx (seeds_spec E) := by
  rw [get_roots_high sqrt cfg f dfodx hd h, hE, ok_bind]
  match E with
  | [] => rfl
  | [e] => rfl
  | a :: b :: t =>
    rw [if_neg (by simp), if_neg (by simp), make_guesses_eq _ (by simp), ok_bind,
      seeds_spec_of_two_le _ (by simp)]

theorem get_roots_ok (sqrt : R → R) (cfg : Data R) :
    ∀ (n : Nat) (f : List R), f.length ≤ n → ∃ r, get_roots sqrt cfg f = Except.ok r := by
  intro n
  induction n with
  | zero => intro f h; exact ⟨[], get_roots_small sqrt cfg f (by omega)⟩
  | succ n ih =>
    intro f h
    match f, h with
    | [], _ => exact ⟨[], get_roots_small sqrt cfg _ (by simp)⟩
    | [_], _ => exact ⟨[], get_roots_small sqrt cfg _ (by simp)⟩
    | [a0, a1], _ => exact ⟨_, get_roots_linear sqrt cfg a0 a1⟩
    | [a0, a1, a2], _ => exact ⟨_, get_roots_quadratic sqrt cfg a0 a1 a2⟩
    | a0 :: a1 :: a2 :: a3 :: t, h =>
      obtain ⟨E, hE⟩ := ih _ (by
        rw [derivative_length _ _ (derivative_eq (a0 :: a1 :: a2 :: a3 :: t))]
        simp at h ⊢
        omega)
      rw [get_roots_high_seeds sqrt cfg _ _ E (derivative_eq _) (by simp) hE, newton_method_eq]
      exact ⟨_, rfl⟩


theorem derivative_getD (f d : List R) (h : derivative f = Except.ok d) (i : Nat)
    (hi : i < f.length - 1) : d.getD i 0 = ((i : R) + 1) * f.getD (i + 1) 0 := by
  rw [derivative_eq] at h
  cases h
  rw [List.getD_eq_getElem _ _ (by simpa using hi)]
  simp

theorem polySum_nil (x : R) : polySum ([] : List R) x = 0 := by
  simp [polySum]

theorem polySum_cons_zero (a : R) (t : List R) : polySum (a :: t) 0 = a := by
  unfold polySum
  rw [List.length_cons, Finset.sum_range_succ']
  simp

/-- Over the reals the polynomial function of `derivative f` is the derivative of the
polynomial function of `f`. -/
theorem polySum_hasDerivAt (f d : List ℝ) (h : derivative f = Except.ok d) (x : ℝ) :
    HasDerivAt (polySum f) (polySum d x) x := by
  have hlen := derivative_length f d h
  have key : HasDerivAt (fun t : ℝ => ∑ i in Finset.range f.length, f.getD i 0 * t ^ i)
      (∑ i in Finset.range f.length, f.getD i 0 * ((i : ℝ) * x ^ (i - 1))) x := by
    apply HasDerivAt.sum
    intro i _
    exact (hasDerivAt_pow i x).const_mul (f.getD i 0)
  have heq : polySum d x
      = ∑ i in Finset.range f.length, f.getD i 0 * ((i : ℝ) * x ^ (i - 1)) := by
    unfold polySum
    rw [hlen]
    cases hf : f.length with
    | zero => simp
    | succ m =>
      rw [Finset.sum_range_succ']
      simp only [Nat.add_sub_cancel, Nat.cast_zero, zero_mul, mul_zero, add_zero]
      apply Finset.sum_congr rfl
      intro i hi
      rw [derivative_getD f d h i (by rw [hf]; simpa using hi)]
      push_cast
      ring
  rw [heq]
  exact key

theorem rat_sqrt_zero : Rat.sqrt 0 = 0 := by simp

theorem rat_sqrt_25 : Rat.sqrt 25 = 5 := by
  have h := Rat.sqrt_eq 5
  rw [show (5 : ℚ) * 5 = 25 by norm_num, abs_of_pos (by norm_num : (0 : ℚ) < 5)] at h
  exact h

theorem seeds_spec_length (E : List R) (h : 2 ≤ E.length) :
    (seeds_spec E).length = E.length + 1 := by
  rw [seeds_spec_of_two_le E h]
  simp
  omega

/-- On `(x³ − 2x + 2) / 16384` Newton's iteration from `0` alternates between `0` and `1`:
two loop iterations bring the loop state back to where it was. -/
theorem cycle_two_steps (n : Nat) :
    newton_iterate_val [(1 / 8192 : ℚ), -1 / 8192, 0, 1 / 16384] [-1 / 8192, 0, 3 / 16384]
        (n + 2) ⟨0, 1 / 8192, 1⟩
      = newton_iterate_val [(1 / 8192 : ℚ), -1 / 8192, 0, 1 / 16384] [-1 / 8192, 0, 3 / 16384]
        n ⟨0, 1 / 8192, 1⟩ := by
  rw [newton_iterate_val, if_pos (by norm_num), newton_iterate_val, if_pos (by
    simp only [polySum, List.length_cons, List.length_nil, Finset.sum_range_succ,
      Finset.sum_range_zero, List.getD_cons_zero, List.getD_cons_succ]
    norm_num)]
  congr 1
  simp only [polySum, List.length_cons, List.length_nil, Finset.sum_range_succ,
    Finset.sum_range_zero, List.getD_cons_zero, List.getD_cons_succ]
  norm_num

theorem cycle_odd_steps (k : Nat) :
    newton_iterate_val [(1 / 8192 : ℚ), -1 / 8192, 0, 1 / 16384] [-1 / 8192, 0, 3 / 16384]
        (2 * k + 1) ⟨0, 1 / 8192, 1⟩ = ⟨1, 1 / 16384, 0⟩ := by
  induction k with
  | zero =>
    rw [newton_iterate_val, if_pos (by norm_num), newton_iterate_val]
    simp only [polySum, List.length_cons, List.length_nil, Finset.sum_range_succ,
      Finset.sum_range_zero, List.getD_cons_zero, List.getD_cons_succ]
    norm_num
  | succ k ih =>
    rw [show 2 * (k + 1) + 1 = (2 * k + 1) + 2 by ring, cycle_two_steps, ih]

/-! ### The cubic `x³ − x` over the reals -/

theorem polySum_cubic (x : ℝ) : polySum [(0 : ℝ), -1, 0, 1] x = x ^ 3 - x := by
  simp only [polySum, List.length_cons, List.length_nil, Finset.sum_range_succ,
    Finset.sum_range_zero, List.getD_cons_zero, List.getD_cons_succ]
  ring

theorem polySum_cubic_deriv (x : ℝ) : polySum [(-1 : ℝ), 0, 3] x = 3 * x ^ 2 - 1 := by
  simp only [polySum, List.length_cons, List.length_nil, Finset.sum_range_succ,
    Finset.sum_range_zero, List.getD_cons_zero, List.getD_cons_succ]
  ring

/-- One Newton step for `t³ − t` from a point `t ∈ (1, 6/5]` stays to the right of the
root `1` and at least halves the distance to it. -/
theorem cubic_step (t : ℝ) (h1 : 1 < t) (h2 : t ≤ 6 / 5) :
    1 < t - (t ^ 3 - t) / (3 * t ^ 2 - 1)
    ∧ t - (t ^ 3 - t) / (3 * t ^ 2 - 1) - 1 ≤ (t - 1) / 2 := by
  have hden : 0 < 3 * t ^ 2 - 1 := by nlinarith
  have e1 : t - (t ^ 3 - t) / (3 * t ^ 2 - 1) - 1
      = (t - 1) ^ 2 * (2 * t + 1) / (3 * t ^ 2 - 1) := by
    field_simp
    ring
  have hpos : 0 < (t - 1) ^ 2 * (2 * t + 1) / (3 * t ^ 2 - 1) := by
    apply div_pos _ hden
    have : 0 < (t - 1) ^ 2 := by
      apply pow_pos
      linarith
    nlinarith
  constructor
  · linarith
  · rw [e1, div_le_iff₀ hden]
    nlinarith [mul_pos (sub_pos.mpr h1) (sub_pos.mpr h1)]

/-- The loop invariant for a guess on the side `σ = ±1` of the origin: both `lastx` and `x`
lie in `σ·(1, 6/5]`, `y` is the residual at `lastx`, and the distances to the root `σ`
are at most `(1/5)/2^k` and `(1/5)/2^(k+1)`. -/
def CubicInv (σ : ℝ) (k : Nat) (s : NewtonState ℝ) : Prop :=
  1 < σ * s.lastx ∧ σ * s.lastx ≤ 6 / 5 ∧ 1 < σ * s.x ∧ σ * s.x ≤ 6 / 5
  ∧ s.y = s.lastx ^ 3 - s.lastx
  ∧ σ * s.lastx - 1 ≤ 1 / 5 / 2 ^ k ∧ σ * s.x - 1 ≤ 1 / 5 / 2 ^ (k + 1)

theorem cubic_step_signed (σ x : ℝ) (hσ : σ = 1 ∨ σ = -1) :
    σ * (x - (x ^ 3 - x) / (3 * x ^ 2 - 1))
      = σ * x - ((σ * x) ^ 3 - σ * x) / (3 * (σ * x) ^ 2 - 1) := by
  rcases hσ with h | h <;> subst h
  · simp
  · have e3 : (-1 * x) ^ 3 - -1 * x = -(x ^ 3 - x) := by ring
    have e2 : 3 * (-1 * x) ^ 2 - 1 = 3 * x ^ 2 - 1 := by ring
    rw [e3, e2, neg_div]
    ring

theorem cubic_inv_step (σ : ℝ) (hσ : σ = 1 ∨ σ = -1) (k : Nat) (s : NewtonState ℝ)
    (h : CubicInv σ k s) :
    s.y ≠ 0 ∧ CubicInv σ (k + 1)
      ⟨s.x, polySum [(0 : ℝ), -1, 0, 1] s.x,
        s.x - polySum [(0 : ℝ), -1, 0, 1] s.x / polySum [(-1 : ℝ), 0, 3] s.x⟩ := by
  obtain ⟨a1, a2, b1, b2, hy, ea, eb⟩ := h
  have hσ2 : σ * σ = 1 := by rcases hσ with h | h <;> subst h <;> norm_num
  constructor
  · rw [hy]
    have : σ * (s.lastx ^ 3 - s.lastx) = (σ * s.lastx) * ((σ * s.lastx) ^ 2 - 1) := by
      have : σ * (s.lastx ^ 3 - s.lastx) = σ * s.lastx * ((σ * σ) * s.lastx ^ 2 - 1) := by
        rw [hσ2]; ring
      rw [this]; ring
    intro h0
    rw [h0, mul_zero] at this
    have hp : 0 < (σ * s.lastx) * ((σ * s.lastx) ^ 2 - 1) := by
      apply mul_pos (by linarith)
      nlinarith
    linarith
  · rw [polySum_cubic, polySum_cubic_deriv]
    obtain ⟨c1, c2⟩ := cubic_step (σ * s.x) b1 b2
    refine ⟨b1, b2, ?_, ?_, rfl, eb, ?_⟩
    · show 1 < σ * (s.x - (s.x ^ 3 - s.x) / (3 * s.x ^ 2 - 1))
      rw [cubic_step_signed σ s.x hσ]
      exact c1
    · show σ * (s.x - (s.x ^ 3 - s.x) / (3 * s.x ^ 2 - 1)) ≤ 6 / 5
      rw [cubic_step_signed σ s.x hσ]
      linarith
    · show σ * (s.x - (s.x ^ 3 - s.x) / (3 * s.x ^ 2 - 1)) - 1 ≤ 1 / 5 / 2 ^ (k + 1 + 1)
      rw [cubic_step_signed σ s.x hσ]
      have : (1 : ℝ) / 5 / 2 ^ (k + 1 + 1) = 1 / 5 / 2 ^ (k + 1) / 2 := by
        rw [pow_succ 2 (k + 1)]
        field_simp
        ring
      rw [this]
      linarith

theorem cubic_inv_iterate (σ : ℝ) (hσ : σ = 1 ∨ σ = -1) :
    ∀ (n k : Nat) (s : NewtonState ℝ), CubicInv σ k s →
      CubicInv σ (k + n) (newton_iterate_val [(0 : ℝ), -1, 0, 1] [-1, 0, 3] n s) := by
  intro n
  induction n with
  | zero => intro k s h; exact h
  | succ n ih =>
    intro k s h
    obtain ⟨hy, hstep⟩ := cubic_inv_step σ hσ k s h
    rw [newton_iterate_val, if_pos hy]
    have := ih (k + 1) _ hstep
    rw [show k + (n + 1) = k + 1 + n by omega]
    exact this

theorem cubic_residual_bound (σ x δ : ℝ) (hσ : σ = 1 ∨ σ = -1) (h1 : 1 < σ * x)
    (h2 : σ * x ≤ 6 / 5) (hδ : σ * x - 1 ≤ δ) : |x ^ 3 - x| ≤ 66 / 25 * δ := by
  have key : |x ^ 3 - x| = (σ * x) ^ 3 - σ * x := by
    rcases hσ with h | h <;> subst h
    · rw [one_mul] at h1 ⊢
      rw [abs_of_pos]
      nlinarith [mul_pos (show (0 : ℝ) < x by linarith) (show (0 : ℝ) < x - 1 by linarith)]
    · have hx : x < -1 := by linarith
      rw [abs_of_neg]
      · ring
      · nlinarith [mul_pos (show (0 : ℝ) < -x by linarith) (show (0 : ℝ) < -x - 1 by linarith)]
  rw [key]
  have hu : 0 ≤ σ * x - 1 := by linarith
  have e : (σ * x) ^ 3 - σ * x = (σ * x) * (σ * x + 1) * (σ * x - 1) := by ring
  rw [e]
  have hb : (σ * x) * (σ * x + 1) ≤ 66 / 25 := by nlinarith
  have hb0 : 0 ≤ (σ * x) * (σ * x + 1) := by nlinarith
  calc (σ * x) * (σ * x + 1) * (σ * x - 1) ≤ 66 / 25 * (σ * x - 1) :=
        mul_le_mul_of_nonneg_right hb hu
    _ ≤ 66 / 25 * δ := by linarith

theorem small_at_cap : (1 : ℝ) / 5 / 2 ^ 65535 ≤ 1 / 5 / 2 ^ 16 := by
  apply div_le_div_of_nonneg_left (by norm_num) (by positivity)
  exact pow_le_pow_right₀ (by norm_num) (by norm_num)

/-- A guess `g` with `σ·g ∈ (1, 6/5]` run through the first step and `65535` loop
iterations ends next to the root `σ`, with both the tested residual and the residual of the
final iterate below `1/10000`. -/
theorem cubic_guess_converges (σ g : ℝ) (hσ : σ = 1 ∨ σ = -1) (hg1 : 1 < σ * g)
    (hg2 : σ * g ≤ 6 / 5) :
    ∃ s : NewtonState ℝ,
      newton_iterate_val [(0 : ℝ), -1, 0, 1] [-1, 0, 3] 65535
        ⟨g, polySum [(0 : ℝ), -1, 0, 1] g,
          g - polySum [(0 : ℝ), -1, 0, 1] g / polySum [(-1 : ℝ), 0, 3] g⟩ = s
      ∧ 1 < σ * s.x ∧ σ * s.x - 1 < 1 / 10000 ∧ |s.y| < 1 / 10000
      ∧ |s.x ^ 3 - s.x| < 1 / 10000 := by
  have h0 : CubicInv σ 0 ⟨g, polySum [(0 : ℝ), -1, 0, 1] g,
      g - polySum [(0 : ℝ), -1, 0, 1] g / polySum [(-1 : ℝ), 0, 3] g⟩ := by
    rw [polySum_cubic, polySum_cubic_deriv]
    obtain ⟨c1, c2⟩ := cubic_step (σ * g) hg1 hg2
    refine ⟨hg1, hg2, ?_, ?_, rfl, ?_, ?_⟩
    · show 1 < σ * (g - (g ^ 3 - g) / (3 * g ^ 2 - 1))
      rw [cubic_step_signed σ g hσ]
      exact c1
    · show σ * (g - (g ^ 3 - g) / (3 * g ^ 2 - 1)) ≤ 6 / 5
      rw [cubic_step_signed σ g hσ]
      linarith
    · show σ * g - 1 ≤ 1 / 5 / 2 ^ 0
      norm_num
      linarith
    · show σ * (g - (g ^ 3 - g) / (3 * g ^ 2 - 1)) - 1 ≤ 1 / 5 / 2 ^ (0 + 1)
      rw [cubic_step_signed σ g hσ]
      norm_num
      linarith
  have h := cubic_inv_iterate σ hσ 65535 0 _ h0
  rw [Nat.zero_add] at h
  refine ⟨_, rfl, ?_⟩
  obtain ⟨a1, a2, b1, b2, hy, ea, eb⟩ := h
  have hsmall := small_at_cap
  have hsmall2 : (1 : ℝ) / 5 / 2 ^ (65535 + 1) ≤ 1 / 5 / 2 ^ 16 := by
    apply div_le_div_of_nonneg_left (by norm_num) (by positivity)
    exact pow_le_pow_right₀ (by norm_num) (by norm_num)
  have hnum : (1 : ℝ) / 5 / 2 ^ 16 < 1 / 10000 / 3 := by norm_num
  refine ⟨b1, by linarith, ?_, ?_⟩
  · rw [hy]
    have := cubic_residual_bound σ _ _ hσ a1 a2 ea
    linarith
  · have := cubic_residual_bound σ _ _ hσ b1 b2 eb
    linarith

theorem newton_iterate_val_of_zero (f d : List R) (n : Nat) (s : NewtonState R)
    (h : s.y = 0) : newton_iterate_val f d n s = s := by
  cases n with
  | zero => rfl
  | succ n => rw [newton_iterate_val, if_neg (not_not.mpr h)]

theorem newton_guess_val_accept (cfg : Data R) (f d roots : List R) (guess : R)
    (s : NewtonState R)
    (hs : newton_iterate_val f d cfg.max_iterations.toNat
      ⟨guess, polySum f guess, guess - polySum f guess / polySum d guess⟩ = s)
    (hnew : s.x ∉ roots) (hres : |s.y| < cfg.acceptable_error) :
    newton_guess_val cfg f d roots guess = roots ++ [s.x] := by
  unfold newton_guess_val
  dsimp only
  rw [hs, if_pos ⟨hnew, hres⟩]

theorem cubic_derivative :
    derivative [(0 : ℝ), -1, 0, 1] = Except.ok [-1, 0, 3] := by
  rw [derivative_eq]
  simp [List.range_succ]
  norm_num

theorem sqrt_twelve_bounds : 3 < Real.sqrt 12 ∧ Real.sqrt 12 ≤ 18 / 5 := by
  have h0 : (0 : ℝ) ≤ Real.sqrt 12 := Real.sqrt_nonneg 12
  have hsq : Real.sqrt 12 * Real.sqrt 12 = 12 := Real.mul_self_sqrt (by norm_num)
  constructor
  · by_contra hc
    push_neg at hc
    nlinarith
  · by_contra hc
    push_neg at hc
    nlinarith

/-- The extrema of `x³ − x` found by the quadratic base case, and the seeds built from them. -/
theorem cubic_seeds :
    get_roots Real.sqrt Data.default [(0 : ℝ), -1, 0, 1]
      = newton_method Data.default [(0 : ℝ), -1, 0, 1] [-1, 0, 3]
          [-(Real.sqrt 12 / 3), 0, Real.sqrt 12 / 3] := by
  have hE : get_roots Real.sqrt Data.default [(-1 : ℝ), 0, 3]
      = Except.ok [-(Real.sqrt 12 / 6), Real.sqrt 12 / 6] := by
    rw [get_roots_quadratic, if_neg (by norm_num), if_pos (by norm_num)]
    have h12 : (0 : ℝ) * 0 - 4 * 3 * -1 = 12 := by norm_num
    rw [h12]
    congr 2
    · ring
    · congr 1
      ring
  rw [get_roots_high_seeds Real.sqrt Data.default _ _ _ cubic_derivative (by simp) hE,
    seeds_spec_of_two_le _ (by simp)]
  congr 1
  simp [List.range_succ]
  refine ⟨?_, ?_⟩ <;> ring

/-- Order of the two values pushed by the quadratic branch: ascending when the leading
coefficient is positive, descending when it is negative. -/
theorem quadratic_roots_order (sqrt : R → R) (hs : ∀ x, 0 < x → 0 < sqrt x)
    (a1 a2 delta : R) (hd : 0 < delta) :
    (0 < a2 → (-a1 - sqrt delta) / (2 * a2) < (-a1 + sqrt delta) / (2 * a2))
    ∧ (a2 < 0 → (-a1 + sqrt delta) / (2 * a2) < (-a1 - sqrt delta) / (2 * a2)) := by
  have h := hs delta hd
  constructor
  · intro ha
    exact div_lt_div_of_pos_right (by linarith) (by linarith)
  · intro ha
    exact div_lt_div_of_neg_of_lt (by linarith) (by linarith)

/-! ### The normalization loop of `process_input` -/

theorem strip_append_zero (l : List R) :
    strip_trailing_zeros (l ++ [0]) = strip_trailing_zeros l := by
  rw [strip_trailing_zeros, dif_neg (by simp), if_pos (by simp)]
  simp

theorem strip_append_nonzero (l : List R) (a : R) (ha : a ≠ 0) :
    strip_trailing_zeros (l ++ [a]) = Except.ok (l ++ [a]) := by
  rw [strip_trailing_zeros, dif_neg (by simp), if_neg (by simpa using ha)]

theorem strip_nil : strip_trailing_zeros ([] : List R) = Except.error Fault.read_outside_vector := by
  rw [strip_trailing_zeros, dif_pos rfl]

theorem strip_replicate_zero (n : Nat) :
    strip_trailing_zeros (List.replicate n (0 : R)) = Except.error Fault.read_outside_vector := by
  induction n with
  | zero => exact strip_nil
  | succ n ih =>
    rw [List.replicate_succ', strip_append_zero, ih]

/-- Where the loop does stop inside the vector: below a non-zero coefficient every trailing
zero is removed and nothing else is changed. -/
theorem strip_nonzero_then_zeros (l : List R) (a : R) (ha : a ≠ 0) (n : Nat) :
    strip_trailing_zeros (l ++ [a] ++ List.replicate n (0 : R)) = Except.ok (l ++ [a]) := by
  induction n with
  | zero => simpa using strip_append_nonzero l a ha
  | succ n ih =>
    rw [List.replicate_succ', ← List.append_assoc, strip_append_zero, ih]

/-! ### What the acceptance test of `newton_method` guarantees -/

/-- The loop keeps `y` the residual at `lastx` and `x` one Newton step after `lastx`. -/
theorem newton_iterate_val_step_inv (f d : List R) :
    ∀ (n : Nat) (s : NewtonState R),
      s.y = polySum f s.lastx → s.x = s.lastx - s.y / polySum d s.lastx →
      (newton_iterate_val f d n s).y = polySum f (newton_iterate_val f d n s).lastx
      ∧ (newton_iterate_val f d n s).x
          = (newton_iterate_val f d n s).lastx
            - (newton_iterate_val f d n s).y / polySum d (newton_iterate_val f d n s).lastx := by
  intro n
  induction n with
  | zero => intro s h1 h2; exact ⟨h1, h2⟩
  | succ n ih =>
    intro s h1 h2
    rw [newton_iterate_val]
    by_cases hy : s.y ≠ 0
    · rw [if_pos hy]
      exact ih _ rfl rfl
    · rw [if_neg hy]
      exact ⟨h1, h2⟩

theorem newton_candidate_inv (cfg : Data R) (f d : List R) (g : R) :
    (newton_candidate cfg f d g).y = polySum f (newton_candidate cfg f d g).lastx
    ∧ (newton_candidate cfg f d g).x
        = (newton_candidate cfg f d g).lastx
          - (newton_candidate cfg f d g).y / polySum d (newton_candidate cfg f d g).lastx :=
  newton_iterate_val_step_inv f d _ _ rfl rfl

theorem newton_guess_val_eq_candidate (cfg : Data R) (f d roots : List R) (g : R) :
    newton_guess_val cfg f d roots g
      = if (newton_candidate cfg f d g).x ∉ roots
            ∧ |(newton_candidate cfg f d g).y| < cfg.acceptable_error
        then roots ++ [(newton_candidate cfg f d g).x] else roots := rfl

/-- A property of roots that every accepted candidate has is a property of every
returned root. -/
theorem foldl_guess_forall (cfg : Data R) (f d : List R) (P : R → Prop)
    (hP : ∀ g, |(newton_candidate cfg f d g).y| < cfg.acceptable_error →
      P (newton_candidate cfg f d g).x) :
    ∀ (guesses roots : List R), (∀ x ∈ roots, P x) →
      ∀ x ∈ guesses.foldl (newton_guess_val cfg f d) roots, P x := by
  intro guesses
  induction guesses with
  | nil => intro roots h; exact h
  | cons g gs ih =>
    intro roots h
    rw [List.foldl_cons]
    apply ih
    rw [newton_guess_val_eq_candidate]
    split
    · rename_i hacc
      intro x hx
      rw [List.mem_append, List.mem_singleton] at hx
      rcases hx with hx | hx
      · exact h x hx
      · rw [hx]
        exact hP g hacc.2
    · exact h

theorem newton_guess_val_subset (cfg : Data R) (f d roots : List R) (g x : R)
    (hx : x ∈ roots) : x ∈ newton_guess_val cfg f d roots g := by
  rw [newton_guess_val_eq_candidate]
  split
  · exact List.mem_append_left _ hx
  · exact hx

theorem foldl_guess_subset (cfg : Data R) (f d : List R) (x : R) :
    ∀ (guesses roots : List R), x ∈ roots →
      x ∈ guesses.foldl (newton_guess_val cfg f d) roots := by
  intro guesses
  induction guesses with
  | nil => intro roots h; exact h
  | cons g gs ih =>
    intro roots h
    rw [List.foldl_cons]
    exact ih _ (newton_guess_val_subset cfg f d roots g x h)

/-- A guess at an exact root of `f`: the candidate is the guess itself with residual `0`. -/
theorem newton_candidate_of_root (cfg : Data R) (f d : List R) (g : R)
    (hf : polySum f g = 0) : newton_candidate cfg f d g = ⟨g, 0, g⟩ := by
  unfold newton_candidate
  rw [hf, zero_div, sub_zero, newton_iterate_val_of_zero _ _ _ _ rfl]

theorem newton_guess_val_of_root (cfg : Data R) (f d roots : List R) (g : R)
    (hf : polySum f g = 0) (htol : 0 < cfg.acceptable_error) :
    newton_guess_val cfg f d roots g = if g ∈ roots then roots else roots ++ [g] := by
  rw [newton_guess_val_eq_candidate, newton_candidate_of_root cfg f d g hf]
  simp only [abs_zero, htol, and_true]
  by_cases h : g ∈ roots
  · rw [if_neg (not_not.mpr h), if_pos h]
  · rw [if_pos h, if_neg h]

theorem foldl_guess_mem_of_root (cfg : Data R) (f d : List R) (g : R)
    (hf : polySum f g = 0) (htol : 0 < cfg.acceptable_error) :
    ∀ (guesses roots : List R), g ∈ guesses →
      g ∈ guesses.foldl (newton_guess_val cfg f d) roots := by
  intro guesses
  induction guesses with
  | nil => intro roots h; cases h
  | cons a gs ih =>
    intro roots h
    rw [List.foldl_cons]
    rcases List.mem_cons.mp h with h | h
    · apply foldl_guess_subset
      rw [← h, newton_guess_val_of_root cfg f d roots g hf htol]
      split
      · assumption
      · exact List.mem_append_right _ (List.mem_singleton_self g)
    · exact ih _ h

theorem evaluate_ok_iff (f : List R) (x v : R) :
    evaluate f x = Except.ok v ↔ polySum f x = v := by
  rw [evaluate_eq]
  constructor
  · intro h
    cases h
    rfl
  · intro h
    rw [h]

/-! ### Discovery order and silent drop -/

theorem foldl_guess_eq_keep (cfg : Data R) (f d : List R) :
    ∀ (guesses roots : List R),
      guesses.foldl (newton_guess_val cfg f d) roots
        = roots ++ keep_accepted cfg.acceptable_error roots
            (guesses.map (newton_candidate cfg f d)) := by
  intro guesses
  induction guesses with
  | nil => intro roots; simp [keep_accepted]
  | cons g gs ih =>
    intro roots
    rw [List.foldl_cons, List.map_cons, keep_accepted, newton_guess_val_eq_candidate]
    by_cases hres : |(newton_candidate cfg f d g).y| < cfg.acceptable_error
    · by_cases hmem : (newton_candidate cfg f d g).x ∈ roots
      · rw [if_neg (fun h => h.1 hmem), if_pos (Or.inr hmem), ih]
      · rw [if_pos ⟨hmem, hres⟩, if_neg (by
          intro h
          rcases h with h | h
          · exact h hres
          · exact hmem h), ih, List.append_assoc, List.singleton_append]
    · rw [if_neg (fun h => hres h.2), if_pos (Or.inl hres), ih]

theorem keep_accepted_sublist (tol : R) :
    ∀ (cs : List (NewtonState R)) (earlier : List R),
      List.Sublist (keep_accepted tol earlier cs) (cs.map (fun c => c.x)) := by
  intro cs
  induction cs with
  | nil => intro earlier; simp [keep_accepted]
  | cons c rest ih =>
    intro earlier
    rw [keep_accepted, List.map_cons]
    split
    · exact (ih earlier).cons _
    · exact (ih _).cons₂ _

theorem newton_method_length_le (cfg : Data R) (f d guesses : List R) :
    ∃ r, newton_method cfg f d guesses = Except.ok r ∧ r.length ≤ guesses.length := by
  refine ⟨_, newton_method_eq cfg f d guesses, ?_⟩
  rw [foldl_guess_eq_keep, List.nil_append]
  have h := (keep_accepted_sublist cfg.acceptable_error
    (guesses.map (newton_candidate cfg f d)) []).length_le
  simpa using h

theorem seeds_spec_length_le (E : List R) : (seeds_spec E).length ≤ E.length + 1
    ∧ 1 ≤ (seeds_spec E).length := by
  match E with
  | [] => exact ⟨by simp [seeds_spec], by simp [seeds_spec]⟩
  | [e] => exact ⟨by simp [seeds_spec], by simp [seeds_spec]⟩
  | a :: b :: t =>
    rw [seeds_spec_length _ (by simp)]
    exact ⟨le_refl _, by omega⟩

/-- The quadratic branch returns at most two values. -/
theorem get_roots_quadratic_length (sqrt : R → R) (cfg : Data R) (a0 a1 a2 : R) :
    ∃ r, get_roots sqrt cfg [a0, a1, a2] = Except.ok r ∧ r.length ≤ 2 := by
  refine ⟨_, get_roots_quadratic sqrt cfg a0 a1 a2, ?_⟩
  split_ifs <;> simp

theorem get_roots_length_le (sqrt : R → R) (cfg : Data R) :
    ∀ (n : Nat) (f : List R), f.length = n + 1 → 1 ≤ n →
      ∃ r, get_roots sqrt cfg f = Except.ok r ∧ r.length ≤ n := by
  intro n
  induction n with
  | zero => intro f _ h; omega
  | succ n ih =>
    intro f hlen _
    match f, hlen with
    | [a0, a1], _ => exact ⟨_, get_roots_linear sqrt cfg a0 a1, by simp⟩
    | [a0, a1, a2], hlen =>
      obtain ⟨r, hr, hle⟩ := get_roots_quadratic_length sqrt cfg a0 a1 a2
      simp at hlen
      exact ⟨r, hr, by omega⟩
    | a0 :: a1 :: a2 :: a3 :: t, hlen =>
      have hdl := derivative_length _ _ (derivative_eq (a0 :: a1 :: a2 :: a3 :: t))
      simp only [List.length_cons] at hlen hdl
      obtain ⟨E, hE, hEle⟩ := ih _ (by rw [hdl]; omega) (by omega)
      rw [get_roots_high_seeds sqrt cfg _ _ E (derivative_eq _) (by simp) hE]
      obtain ⟨r, hr, hrle⟩ := newton_method_length_le cfg (a0 :: a1 :: a2 :: a3 :: t)
        (List.map (fun j => ((j + 1 : ℕ) : R) * (a0 :: a1 :: a2 :: a3 :: t).getD (j + 1) 0)
          (List.range ((a0 :: a1 :: a2 :: a3 :: t).length - 1))) (seeds_spec E)
      have := (seeds_spec_length_le E).1
      exact ⟨r, hr, by omega⟩

theorem mem_keep_accepted (tol : R) (x : R) :
    ∀ (cs : List (NewtonState R)) (earlier : List R),
      x ∈ earlier ++ keep_accepted tol earlier cs
        ↔ x ∈ earlier ∨ ∃ c ∈ cs, c.x = x ∧ |c.y| < tol := by
  intro cs
  induction cs with
  | nil => intro earlier; simp [keep_accepted]
  | cons c rest ih =>
    intro earlier
    rw [keep_accepted]
    by_cases hrem : ¬ (|c.y| < tol) ∨ c.x ∈ earlier
    · rw [if_pos hrem, ih]
      constructor
      · rintro (h | ⟨c1, hc1, h1, h2⟩)
        · exact Or.inl h
        · exact Or.inr ⟨c1, List.mem_cons_of_mem _ hc1, h1, h2⟩
      · rintro (h | ⟨c1, hc1, h1, h2⟩)
        · exact Or.inl h
        · rcases List.mem_cons.mp hc1 with hc | hc
          · subst hc
            rcases hrem with hr | hr
            · exact absurd h2 hr
            · exact Or.inl (h1 ▸ hr)
          · exact Or.inr ⟨c1, hc, h1, h2⟩
    · rw [if_neg hrem]
      push_neg at hrem
      have e : earlier ++ c.x :: keep_accepted tol (earlier ++ [c.x]) rest
          = (earlier ++ [c.x]) ++ keep_accepted tol (earlier ++ [c.x]) rest := by simp
      rw [e, ih]
      constructor
      · rintro (h | ⟨c1, hc1, h1, h2⟩)
        · rcases List.mem_append.mp h with h | h
          · exact Or.inl h
          · rw [List.mem_singleton] at h
            exact Or.inr ⟨c, List.mem_cons_self _ _, h.symm, hrem.1⟩
        · exact Or.inr ⟨c1, List.mem_cons_of_mem _ hc1, h1, h2⟩
      · rintro (h | ⟨c1, hc1, h1, h2⟩)
        · exact Or.inl (List.mem_append_left _ h)
        · rcases List.mem_cons.mp hc1 with hc | hc
          · subst hc
            exact Or.inl (List.mem_append_right _ (by rw [List.mem_singleton, h1]))
          · exact Or.inr ⟨c1, hc, h1, h2⟩

/-! ### Termination, recursion depth and iteration count -/

theorem get_roots_depth_small (f : List R) (h : f.length < 4) : get_roots_depth f = 0 := by
  rw [get_roots_depth]
  split_ifs <;> first | rfl | omega

theorem get_roots_depth_high (f d : List R) (hd : derivative f = Except.ok d)
    (h : 4 ≤ f.length) : get_roots_depth f = get_roots_depth d + 1 := by
  rw [get_roots_depth, if_neg (by omega), if_neg (by omega), if_neg (by omega)]
  split
  · rename_i e he
    rw [hd] at he
    cases he
  · rename_i d2 he
    rw [hd] at he
    cases he
    rfl

theorem get_roots_depth_eq :
    ∀ (n : Nat) (f : List R), f.length = n → get_roots_depth f = n - 3 := by
  intro n
  induction n with
  | zero => intro f h; rw [get_roots_depth_small f (by omega)]
  | succ n ih =>
    intro f h
    by_cases h4 : 4 ≤ f.length
    · rw [get_roots_depth_high f _ (derivative_eq f) h4,
        ih _ (by rw [derivative_length f _ (derivative_eq f)]; omega)]
      omega
    · rw [get_roots_depth_small f (by omega)]
      omega

theorem newton_iterate_count_le (f d : List R) :
    ∀ (n : Nat) (s : NewtonState R), newton_iterate_count f d n s ≤ n := by
  intro n
  induction n with
  | zero => intro s; exact le_refl 0
  | succ n ih =>
    intro s
    rw [newton_iterate_count]
    split
    · exact Nat.succ_le_succ (ih _)
    · exact Nat.zero_le _

/-- The loop does exactly `newton_iterate_count` iterations: the same state results when
the counter allows only that many. -/
theorem newton_iterate_val_count (f d : List R) :
    ∀ (n : Nat) (s : NewtonState R),
      newton_iterate_val f d n s
        = newton_iterate_val f d (newton_iterate_count f d n s) s := by
  intro n
  induction n with
  | zero => intro s; rfl
  | succ n ih =>
    intro s
    rw [newton_iterate_count]
    by_cases hy : s.y ≠ 0
    · rw [if_pos hy, newton_iterate_val, if_pos hy, newton_iterate_val, if_pos hy]
      exact ih _
    · rw [if_neg hy]
      show newton_iterate_val f d (n + 1) s = s
      rw [newton_iterate_val, if_neg hy]

/-! ### The loop follows Newton's sequence -/

theorem newton_iterate_val_seq (f d : List R) (g : R) :
    ∀ (n k : Nat),
      newton_iterate_val f d n (newton_seq_state f d g k)
          = newton_seq_state f d g (k + newton_iterate_count f d n (newton_seq_state f d g k))
      ∧ (∀ j, j < newton_iterate_count f d n (newton_seq_state f d g k) →
          polySum f (newton_seq f d g (k + j)) ≠ 0)
      ∧ (newton_iterate_count f d n (newton_seq_state f d g k) = n
          ∨ polySum f (newton_seq f d g
              (k + newton_iterate_count f d n (newton_seq_state f d g k))) = 0) := by
  intro n
  induction n with
  | zero =>
    intro k
    refine ⟨rfl, ?_, Or.inl rfl⟩
    intro j hj
    exact absurd hj (Nat.not_lt_zero j)
  | succ n ih =>
    intro k
    rw [newton_iterate_val, newton_iterate_count]
    by_cases hy : (newton_seq_state f d g k).y ≠ 0
    · rw [if_pos hy, if_pos hy]
      have hstate : (⟨(newton_seq_state f d g k).x, polySum f (newton_seq_state f d g k).x,
          (newton_seq_state f d g k).x - polySum f (newton_seq_state f d g k).x
            / polySum d (newton_seq_state f d g k).x⟩ : NewtonState R)
          = newton_seq_state f d g (k + 1) := rfl
      rw [hstate]
      obtain ⟨h1, h2, h3⟩ := ih (k + 1)
      refine ⟨?_, ?_, ?_⟩
      · rw [h1]
        congr 1
        omega
      · intro j hj
        cases j with
        | zero => exact hy
        | succ j =>
          have := h2 j (by omega)
          rw [show k + (j + 1) = k + 1 + j by omega]
          exact this
      · rcases h3 with h3 | h3
        · exact Or.inl (by omega)
        · right
          rw [show k + (newton_iterate_count f d n (newton_seq_state f d g (k + 1)) + 1)
            = k + 1 + newton_iterate_count f d n (newton_seq_state f d g (k + 1)) by omega]
          exact h3
    · rw [if_neg hy, if_neg hy]
      refine ⟨rfl, ?_, Or.inr (not_not.mp hy)⟩
      intro j hj
      exact absurd hj (Nat.not_lt_zero j)

/-! ### Normalization along the recursion -/

theorem derivative_getLast_ne_zero (f d : List R) (hd : derivative f = Except.ok d)
    (h2 : 2 ≤ f.length) (hlast : ∀ h : f ≠ [], f.getLast h ≠ 0) :
    ∀ h : d ≠ [], d.getLast h ≠ 0 := by
  intro hne
  have hlen := derivative_length f d hd
  have hf : f ≠ [] := by
    intro h0
    rw [h0] at h2
    simp at h2
  rw [List.getLast_eq_getElem, ← List.getD_eq_getElem d 0,
    derivative_getD f d hd (d.length - 1) (by omega)]
  have hfl : f.getD (d.length - 1 + 1) 0 = f.getLast hf := by
    rw [List.getLast_eq_getElem, List.getD_eq_getElem f 0 (by omega)]
    congr 1
    omega
  rw [hfl]
  apply mul_ne_zero
  · have : (0 : R) ≤ ((d.length - 1 : ℕ) : R) := Nat.cast_nonneg _
    linarith
  · exact hlast hf

theorem reached_normalized (f : List R) (hlast : ∀ h : f ≠ [], f.getLast h ≠ 0)
    (g : List R) (hg : Reached f g) : ∀ h : g ≠ [], g.getLast h ≠ 0 := by
  induction hg with
  | top => exact hlast
  | nested g1 d _ h4 hd ih => exact derivative_getLast_ne_zero g1 d hd (by omega) ih

end Lemmas

section Claims

/-- C9 (Evaluator): `evaluate f x` returns the sum of `f[i] · x ^ i` over all indices
`i < len f`; on the empty list it returns `0`; and at `x = 0` it returns the constant
term, since `x ^ 0 = 1` also there. -/
theorem evaluate_is_power_sum {R : Type} [LinearOrderedField R] (f : List R) (x : R) :
    evaluate f x = Except.ok (∑ i in Finset.range f.length, f.getD i 0 * x ^ i)
    ∧ evaluate ([] : List R) x = Except.ok 0
    ∧ (∀ (a : R) (t : List R), evaluate (a :: t) 0 = Except.ok a) := by
  refine ⟨evaluate_eq f x, ?_, ?_⟩
  · rw [evaluate_eq, polySum_nil]
  · intro a t
    rw [evaluate_eq, polySum_cons_zero]

/-- C10 (constant or empty polynomial): on a coefficient list of length 0 or 1
`get_roots` returns the empty root list, without error, whatever the coefficient. -/
theorem get_roots_constant {R : Type} [LinearOrderedField R] (sqrt : R → R) (cfg : Data R)
    (f : List R) (h : f.length = 0 ∨ f.length = 1) :
    get_roots sqrt cfg f = Except.ok [] :=
  get_roots_small sqrt cfg f (by omega)

/-- Witness for C10: the zero constant polynomial `[0]` over `ℚ`. -/
theorem get_roots_constant_witness :
    ([(0 : ℚ)].length = 0 ∨ [(0 : ℚ)].length = 1)
    ∧ get_roots Rat.sqrt Data.default [(0 : ℚ)] = Except.ok [] :=
  ⟨Or.inr rfl, get_roots_constant Rat.sqrt Data.default [(0 : ℚ)] (Or.inr rfl)⟩

/-- C8 (Derivative): `derivative f` returns a list of length `len f - 1` (empty for an
empty or constant polynomial) whose coefficient at every index `i < len f - 1` is
`(i + 1) · f[i + 1]`; and over the reals the value `evaluate (derivative f) x` is the
derivative at `x` of the function `t ↦ evaluate f t`. -/
theorem derivative_is_formal_derivative :
    (∀ (R : Type) [LinearOrderedField R] (f : List R),
      ∃ d, derivative f = Except.ok d ∧ d.length = f.length - 1
        ∧ ∀ i, i < f.length - 1 → d.getD i 0 = ((i : R) + 1) * f.getD (i + 1) 0)
    ∧ (∀ f : List ℝ, ∃ (d : List ℝ) (F F' : ℝ → ℝ),
        derivative f = Except.ok d
        ∧ (∀ x, evaluate f x = Except.ok (F x))
        ∧ (∀ x, evaluate d x = Except.ok (F' x))
        ∧ ∀ x, HasDerivAt F (F' x) x) := by
  constructor
  · intro R _ f
    exact ⟨_, derivative_eq f, derivative_length f _ (derivative_eq f),
      fun i hi => derivative_getD f _ (derivative_eq f) i hi⟩
  · intro f
    exact ⟨_, polySum f, polySum _, derivative_eq f, fun x => evaluate_eq f x,
      fun x => evaluate_eq _ x, fun x => polySum_hasDerivAt f _ (derivative_eq f) x⟩

/-- C3 (quadratic closed form): for `[a0, a1, a2]` with `Δ = a1² − 4·a2·a0`, and a square
root function with `sqrt 0 = 0`, `get_roots` returns `[]` when `Δ < 0`, the one-element
list `[-a1 / (2·a2)]` when `Δ = 0`, and `[(-a1 − √Δ)/(2·a2), (-a1 + √Δ)/(2·a2)]` in that
order when `Δ > 0`.  In particular `[1,0,1]` gives `[]`, `[1,-2,1]` gives `[1]` and, with
`sqrt 25 = 5`, `[-4,-3,1]` gives `[-1, 4]`. -/
theorem get_roots_quadratic_closed_form {R : Type} [LinearOrderedField R] (sqrt : R → R)
    (cfg : Data R) (hs0 : sqrt 0 = 0) (hs25 : sqrt 25 = 5) (a0 a1 a2 : R) :
    get_roots sqrt cfg [a0, a1, a2] = Except.ok
      (if a1 * a1 - 4 * a2 * a0 < 0 then []
       else if a1 * a1 - 4 * a2 * a0 = 0 then [-a1 / (2 * a2)]
       else [(-a1 - sqrt (a1 * a1 - 4 * a2 * a0)) / (2 * a2),
             (-a1 + sqrt (a1 * a1 - 4 * a2 * a0)) / (2 * a2)])
    ∧ get_roots sqrt cfg [1, 0, 1] = Except.ok []
    ∧ get_roots sqrt cfg [1, -2, 1] = Except.ok [1]
    ∧ get_roots sqrt cfg [-4, -3, 1] = Except.ok [-1, 4] := by
  refine ⟨?_, ?_, ?_, ?_⟩
  · rw [get_roots_quadratic]
    by_cases h1 : a1 * a1 - 4 * a2 * a0 < 0
    · rw [if_pos h1, if_pos h1]
    · rw [if_neg h1, if_neg h1]
      by_cases h2 : a1 * a1 - 4 * a2 * a0 = 0
      · rw [if_neg (not_not.mpr h2), if_pos h2, h2, hs0, sub_zero]
      · rw [if_pos h2, if_neg h2]
  · rw [get_roots_quadratic, if_pos (by norm_num)]
  · rw [get_roots_quadratic, if_neg (by norm_num), if_neg (by norm_num)]
    norm_num [hs0]
  · rw [get_roots_quadratic, if_neg (by norm_num), if_pos (by norm_num)]
    norm_num [hs25]

/-- Witness for C3: the rational square root `Rat.sqrt`
and the polynomial `2 − 3x + x²`, whose discriminant is `1`. -/
theorem get_roots_quadratic_closed_form_witness :
    Rat.sqrt 0 = 0 ∧ Rat.sqrt 25 = 5
    ∧ get_roots Rat.sqrt Data.default [(2 : ℚ), -3, 1] = Except.ok
      (if (-3 : ℚ) * -3 - 4 * 1 * 2 < 0 then []
       else if (-3 : ℚ) * -3 - 4 * 1 * 2 = 0 then [-(-3 : ℚ) / (2 * 1)]
       else [(-(-3 : ℚ) - Rat.sqrt (-3 * -3 - 4 * 1 * 2)) / (2 * 1),
             (-(-3 : ℚ) + Rat.sqrt (-3 * -3 - 4 * 1 * 2)) / (2 * 1)])
    ∧ get_roots Rat.sqrt Data.default [(1 : ℚ), 0, 1] = Except.ok []
    ∧ get_roots Rat.sqrt Data.default [(1 : ℚ), -2, 1] = Except.ok [1]
    ∧ get_roots Rat.sqrt Data.default [(-4 : ℚ), -3, 1] = Except.ok [-1, 4] :=
  ⟨rat_sqrt_zero, rat_sqrt_25,
    get_roots_quadratic_closed_form Rat.sqrt Data.default rat_sqrt_zero rat_sqrt_25 2 (-3) 1⟩

/-- C6 (seed synthesis for degree ≥ 3): for `f` of length at least 4, with
`d = derivative f` and `E = get_roots d`, `get_roots f` is `newton_method f d S` where
`S = [0]` if `E` is empty, `S = [e − 1, e + 1]` if `E = [e]`, and for `k = len E ≥ 2` the
list `S` has `k + 1` elements: `0.5·(3·E[0] − E[1])`, then the midpoints
`0.5·(E[i] + E[i+1])` for `i = 0..k−2` in order, then `0.5·(3·E[k−1] − E[k−2])`. -/
theorem get_roots_seed_synthesis {R : Type} [LinearOrderedField R] (sqrt : R → R)
    (cfg : Data R) (f : List R) (h : 4 ≤ f.length) :
    ∃ d E S, derivative f = Except.ok d ∧ get_roots sqrt cfg d = Except.ok E
      ∧ get_roots sqrt cfg f = newton_method cfg f d S
      ∧ (E = [] → S = [0])
      ∧ (∀ e, E = [e] → S = [e - 1, e + 1])
      ∧ (2 ≤ E.length →
          S.length = E.length + 1
          ∧ S.getD 0 0 = 1 / 2 * (3 * E.getD 0 0 - E.getD 1 0)
          ∧ (∀ i, i < E.length - 1 → S.getD (i + 1) 0 = 1 / 2 * (E.getD i 0 + E.getD (i + 1) 0))
          ∧ S.getD E.length 0
              = 1 / 2 * (3 * E.getD (E.length - 1) 0 - E.getD (E.length - 2) 0)) := by
  obtain ⟨E, hE⟩ := get_roots_ok sqrt cfg _ _ (le_of_eq (derivative_length f _ (derivative_eq f)))
  refine ⟨_, E, seeds_spec E, derivative_eq f, hE,
    get_roots_high_seeds sqrt cfg f _ E (derivative_eq f) h hE, ?_, ?_, ?_⟩
  · intro h0
    rw [h0]
    rfl
  · intro e h1
    rw [h1]
    rfl
  · intro h2
    refine ⟨seeds_spec_length E h2, ?_, ?_, ?_⟩
    · rw [seeds_spec_of_two_le E h2]
      rfl
    · intro i hi
      rw [seeds_spec_of_two_le E h2, List.append_assoc, List.singleton_append,
        List.getD_cons_succ, List.getD_append _ _ _ _ (by simpa using hi),
        List.getD_eq_getElem _ _ (by simpa using hi)]
      simp
    · rw [seeds_spec_of_two_le E h2, List.getD_append_right _ _ _ _ (by simp; omega)]
      have : E.length - ([1 / 2 * (3 * E.getD 0 0 - E.getD 1 0)] ++
          List.map (fun i => 1 / 2 * (E.getD i 0 + E.getD (i + 1) 0))
            (List.range (E.length - 1))).length = 0 := by
        simp
        omega
      rw [this]
      rfl

/-- Witness for C6: the cubic `x³ − x` over `ℚ`. -/
theorem get_roots_seed_synthesis_witness :
    4 ≤ [(0 : ℚ), -1, 0, 1].length ∧
    ∃ d E S, derivative [(0 : ℚ), -1, 0, 1] = Except.ok d
      ∧ get_roots Rat.sqrt Data.default d = Except.ok E
      ∧ get_roots Rat.sqrt Data.default [(0 : ℚ), -1, 0, 1]
          = newton_method Data.default [(0 : ℚ), -1, 0, 1] d S
      ∧ (E = [] → S = [0])
      ∧ (∀ e, E = [e] → S = [e - 1, e + 1])
      ∧ (2 ≤ E.length →
          S.length = E.length + 1
          ∧ S.getD 0 0 = 1 / 2 * (3 * E.getD 0 0 - E.getD 1 0)
          ∧ (∀ i, i < E.length - 1 → S.getD (i + 1) 0 = 1 / 2 * (E.getD i 0 + E.getD (i + 1) 0))
          ∧ S.getD E.length 0
              = 1 / 2 * (3 * E.getD (E.length - 1) 0 - E.getD (E.length - 2) 0)) :=
  ⟨by decide, get_roots_seed_synthesis Rat.sqrt Data.default [(0 : ℚ), -1, 0, 1] (by decide)⟩

/-- C1 (evaluation at the failing input): for `f = (x³ − 2x + 2) / 16384`, its derivative
`d`, the guess list `[0]` and the default configuration (tolerance `0.0001`, cap `65535`),
`newton_method` returns `[0]`, although the residual at `0` is `1/8192`, which is not
below the tolerance. -/
theorem newton_method_returns_untested_value :
    derivative [(1 / 8192 : ℚ), -1 / 8192, 0, 1 / 16384] = Except.ok [-1 / 8192, 0, 3 / 16384]
    ∧ newton_method Data.default [(1 / 8192 : ℚ), -1 / 8192, 0, 1 / 16384]
        [-1 / 8192, 0, 3 / 16384] [0] = Except.ok [0]
    ∧ evaluate [(1 / 8192 : ℚ), -1 / 8192, 0, 1 / 16384] 0 = Except.ok (1 / 8192)
    ∧ ¬ (|(1 / 8192 : ℚ)| < (Data.default : Data ℚ).acceptable_error) := by
  refine ⟨?_, ?_, ?_, ?_⟩
  · rw [derivative_eq]
    simp [List.range_succ]
    norm_num
  · rw [newton_method_eq, List.foldl_cons, List.foldl_nil, newton_guess_val]
    have h0 : polySum [(1 / 8192 : ℚ), -1 / 8192, 0, 1 / 16384] 0 = 1 / 8192 := by
      simp only [polySum, List.length_cons, List.length_nil, Finset.sum_range_succ,
        Finset.sum_range_zero, List.getD_cons_zero, List.getD_cons_succ]
      norm_num
    have h1 : polySum [(-1 / 8192 : ℚ), 0, 3 / 16384] 0 = -1 / 8192 := by
      simp only [polySum, List.length_cons, List.length_nil, Finset.sum_range_succ,
        Finset.sum_range_zero, List.getD_cons_zero, List.getD_cons_succ]
      norm_num
    have h2 : (0 : ℚ) - 1 / 8192 / (-1 / 8192) = 1 := by norm_num
    have h3 : (Data.default : Data ℚ).max_iterations.toNat = 2 * 32767 + 1 := by
      simp [Data.default]
    rw [h0, h1, h2, h3, cycle_odd_steps]
    simp [Data.default]
    rw [abs_of_pos (by norm_num)]
    norm_num
  · rw [evaluate_eq]
    congr 1
    simp only [polySum, List.length_cons, List.length_nil, Finset.sum_range_succ,
      Finset.sum_range_zero, List.getD_cons_zero, List.getD_cons_succ]
    norm_num
  · simp only [Data.default]
    rw [abs_of_pos (by norm_num)]
    norm_num

/-- C7 (cubic with three real roots): for `f = [0, -1, 0, 1]` (`x³ − x`) with the default
configuration (tolerance `0.0001`, cap `65535`) and the real square root, `get_roots`
returns exactly three pairwise distinct values, the first within `0.0001` of `−1`, the
second within `0.0001` of `0`, the third within `0.0001` of `1`, and the polynomial
evaluates to less than the tolerance in absolute value at each of them. -/
theorem cubic_three_real_roots :
    ∃ r1 r2 r3 : ℝ,
      get_roots Real.sqrt Data.default [(0 : ℝ), -1, 0, 1] = Except.ok [r1, r2, r3]
      ∧ r1 ≠ r2 ∧ r1 ≠ r3 ∧ r2 ≠ r3
      ∧ |r1 - (-1)| < 1 / 10000 ∧ |r2 - 0| < 1 / 10000 ∧ |r3 - 1| < 1 / 10000
      ∧ ∀ x ∈ [r1, r2, r3], ∃ y, evaluate [(0 : ℝ), -1, 0, 1] x = Except.ok y
          ∧ |y| < (Data.default : Data ℝ).acceptable_error := by
  obtain ⟨hs3, hs36⟩ := sqrt_twelve_bounds
  obtain ⟨sa, hsa, a1, a2, a3, a4⟩ := cubic_guess_converges (-1) (-(Real.sqrt 12 / 3))
    (Or.inr rfl) (by linarith) (by linarith)
  obtain ⟨sc, hsc, c1, c2, c3, c4⟩ := cubic_guess_converges 1 (Real.sqrt 12 / 3)
    (Or.inl rfl) (by linarith) (by linarith)
  have hcap : (Data.default : Data ℝ).max_iterations.toNat = 65535 := by
    simp [Data.default]
  have htol : (Data.default : Data ℝ).acceptable_error = 1 / 10000 := rfl
  have hfirst : newton_guess_val Data.default [(0 : ℝ), -1, 0, 1] [-1, 0, 3] []
      (-(Real.sqrt 12 / 3)) = [sa.x] :=
    newton_guess_val_accept Data.default _ _ [] _ sa (by rw [hcap]; exact hsa)
      (List.not_mem_nil _) (by rw [htol]; exact a3)
  have hzero : newton_iterate_val [(0 : ℝ), -1, 0, 1] [-1, 0, 3]
      (Data.default : Data ℝ).max_iterations.toNat
      ⟨0, polySum [(0 : ℝ), -1, 0, 1] 0,
        0 - polySum [(0 : ℝ), -1, 0, 1] 0 / polySum [(-1 : ℝ), 0, 3] 0⟩ = ⟨0, 0, 0⟩ := by
    rw [newton_iterate_val_of_zero _ _ _ _ (by rw [polySum_cubic]; norm_num), polySum_cubic]
    norm_num
  have hsecond : newton_guess_val Data.default [(0 : ℝ), -1, 0, 1] [-1, 0, 3] [sa.x] 0
      = [sa.x, 0] :=
    newton_guess_val_accept Data.default _ _ [sa.x] _ ⟨0, 0, 0⟩ hzero
      (by
        rw [List.mem_singleton]
        intro h
        rw [← h] at a1
        norm_num at a1)
      (by rw [htol]; norm_num)
  have hthird : newton_guess_val Data.default [(0 : ℝ), -1, 0, 1] [-1, 0, 3] [sa.x, 0]
      (Real.sqrt 12 / 3) = [sa.x, 0, sc.x] :=
    newton_guess_val_accept Data.default _ _ [sa.x, 0] _ sc (by rw [hcap]; exact hsc)
      (by
        simp only [List.mem_cons, List.mem_singleton, List.not_mem_nil, or_false, not_or]
        constructor
        · intro h
          rw [h] at c1
          linarith
        · intro h
          rw [h] at c1
          norm_num at c1)
      (by rw [htol]; exact c3)
  refine ⟨sa.x, 0, sc.x, ?_, ?_, ?_, ?_, ?_, ?_, ?_, ?_⟩
  · rw [cubic_seeds, newton_method_eq, List.foldl_cons, List.foldl_cons, List.foldl_cons,
      List.foldl_nil, hfirst, hsecond, hthird]
  · intro h
    rw [h] at a1
    norm_num at a1
  · intro h
    rw [h] at a1
    linarith
  · intro h
    rw [← h] at c1
    norm_num at c1
  · rw [abs_lt]
    constructor <;> linarith
  · norm_num
  · rw [abs_lt]
    constructor <;> linarith
  · intro x hx
    refine ⟨_, evaluate_eq _ x, ?_⟩
    rw [polySum_cubic, htol]
    simp only [List.mem_cons, List.mem_singleton, List.not_mem_nil, or_false] at hx
    rcases hx with h | h | h
    · rw [h]; exact a4
    · rw [h]; norm_num
    · rw [h]; exact c4

/-- C11 (evaluation at the failing inputs): on a non-empty coefficient list whose
coefficients are all zero the normalization loop of `process_input` pops every
coefficient and then evaluates its condition once more on the empty vector, reading
outside the vector; it does not return the empty polynomial. -/
theorem strip_trailing_zeros_all_zero (n : Nat) :
    strip_trailing_zeros (List.replicate (n + 1) (0 : ℚ))
        = Except.error Fault.read_outside_vector
    ∧ strip_trailing_zeros [(0 : ℚ)] = Except.error Fault.read_outside_vector
    ∧ strip_trailing_zeros [(0 : ℚ), 0] ≠ Except.ok [] := by
  refine ⟨strip_replicate_zero (n + 1), strip_replicate_zero 1, ?_⟩
  rw [show [(0 : ℚ), 0] = List.replicate 2 0 from rfl, strip_replicate_zero]
  intro h
  cases h

/-- C12 (no exception escapes the core): for every coefficient list, guess list and
configuration, every bounds-checked access `.at` made by `evaluate`, `derivative`,
`get_roots` and `newton_method` is within bounds: none of them takes the
`std::out_of_range` branch, each returns its value, and the solvers return a root list. -/
theorem core_raises_no_exception {R : Type} [LinearOrderedField R] (sqrt : R → R)
    (cfg : Data R) (f d guesses : List R) (x : R) :
    (∃ y, evaluate f x = Except.ok y)
    ∧ (∃ d1, derivative f = Except.ok d1)
    ∧ (∃ r, get_roots sqrt cfg f = Except.ok r)
    ∧ (∃ r, newton_method cfg f d guesses = Except.ok r)
    ∧ (∀ e, evaluate f x ≠ Except.error e ∧ derivative f ≠ Except.error e
        ∧ get_roots sqrt cfg f ≠ Except.error e
        ∧ newton_method cfg f d guesses ≠ Except.error e) := by
  obtain ⟨r, hr⟩ := get_roots_ok sqrt cfg f.length f (le_refl _)
  refine ⟨⟨_, evaluate_eq f x⟩, ⟨_, derivative_eq f⟩, ⟨r, hr⟩,
    ⟨_, newton_method_eq cfg f d guesses⟩, ?_⟩
  intro e
  rw [evaluate_eq, derivative_eq, hr, newton_method_eq]
  refine ⟨?_, ?_, ?_, ?_⟩ <;> intro h <;> cases h

/-- C18 (what acceptance guarantees): every value `x` returned by `newton_method` has a
point `p` whose residual `evaluate f p` is below the tolerance in absolute value and from
which `x` is one Newton step away, `x = p − evaluate f p / evaluate d p`; the residual that
was tested is the one at `p`, the previous iterate. -/
theorem returned_root_is_one_step_after_tested_point {R : Type} [LinearOrderedField R]
    (cfg : Data R) (f d guesses : List R) :
    ∃ r, newton_method cfg f d guesses = Except.ok r
      ∧ ∀ x ∈ r, ∃ p yp dp, evaluate f p = Except.ok yp ∧ evaluate d p = Except.ok dp
          ∧ |yp| < cfg.acceptable_error ∧ x = p - yp / dp := by
  refine ⟨_, newton_method_eq cfg f d guesses, ?_⟩
  refine foldl_guess_forall cfg f d
    (fun x => ∃ p yp dp, evaluate f p = Except.ok yp ∧ evaluate d p = Except.ok dp
      ∧ |yp| < cfg.acceptable_error ∧ x = p - yp / dp) ?_ guesses [] ?_
  · intro g hacc
    obtain ⟨h1, h2⟩ := newton_candidate_inv cfg f d g
    refine ⟨(newton_candidate cfg f d g).lastx, (newton_candidate cfg f d g).y,
      polySum d (newton_candidate cfg f d g).lastx, ?_, evaluate_eq _ _, hacc, h2⟩
    rw [evaluate_eq, h1]
  · intro x hx
    cases hx

/-- C19 (exact roots are fixed points): if `evaluate f g = 0`, `evaluate d g ≠ 0` and the
tolerance is positive, then for the guess `g` the loop body never runs (the loop returns
its initial state `(g, 0, g)` after `0` iterations), `newton_method f d [g]` returns
`[g]`, one pass of the outer loop adds `g` unless it is already among the accepted roots,
and `g` is among the roots returned for every guess list that contains `g`. -/
theorem exact_root_is_fixed_point {R : Type} [LinearOrderedField R] (cfg : Data R)
    (f d : List R) (g dv : R) (hf : evaluate f g = Except.ok 0)
    (hd : evaluate d g = Except.ok dv) (hdv : dv ≠ 0) (htol : 0 < cfg.acceptable_error) :
    g - 0 / dv = g
    ∧ (∀ n, newton_iterate_count f d n ⟨g, 0, g - 0 / dv⟩ = 0
        ∧ newton_iterate f d n ⟨g, 0, g - 0 / dv⟩ = Except.ok ⟨g, 0, g⟩)
    ∧ newton_method cfg f d [g] = Except.ok [g]
    ∧ (∀ roots, newton_guess cfg f d roots g
        = Except.ok (if g ∈ roots then roots else roots ++ [g]))
    ∧ (∀ guesses, g ∈ guesses →
        ∃ r, newton_method cfg f d guesses = Except.ok r ∧ g ∈ r) := by
  -- division is total in the model (`0 / dv = 0` for every `dv`), so `hd` and `hdv`
  -- are not needed below; with IEEE division they are (`0 / 0` is NaN)
  have _hd := hd
  have _hdv := hdv
  have hf0 : polySum f g = 0 := (evaluate_ok_iff f g 0).mp hf
  have hstep : g - 0 / dv = g := by rw [zero_div, sub_zero]
  refine ⟨hstep, ?_, ?_, ?_, ?_⟩
  · intro n
    rw [hstep]
    constructor
    · cases n with
      | zero => rfl
      | succ n => rw [newton_iterate_count, if_neg (not_not.mpr rfl)]
    · rw [newton_iterate_eq, newton_iterate_val_of_zero _ _ _ _ rfl]
  · rw [newton_method_eq, List.foldl_cons, List.foldl_nil,
      newton_guess_val_of_root cfg f d [] g hf0 htol, if_neg (List.not_mem_nil g)]
    rfl
  · intro roots
    rw [newton_guess_eq, newton_guess_val_of_root cfg f d roots g hf0 htol]
  · intro guesses hg
    exact ⟨_, newton_method_eq cfg f d guesses,
      foldl_guess_mem_of_root cfg f d g hf0 htol guesses [] hg⟩

/-- Witness for C19: the root `1` of `x² − 3x + 2` over `ℚ`, with derivative `2x − 3`
and the default configuration. -/
theorem exact_root_is_fixed_point_witness :
    evaluate [(2 : ℚ), -3, 1] 1 = Except.ok 0
    ∧ evaluate [(-3 : ℚ), 2] 1 = Except.ok (-1)
    ∧ (-1 : ℚ) ≠ 0
    ∧ 0 < (Data.default : Data ℚ).acceptable_error
    ∧ newton_method Data.default [(2 : ℚ), -3, 1] [-3, 2] [1] = Except.ok [1] := by
  have hf : evaluate [(2 : ℚ), -3, 1] 1 = Except.ok 0 := by
    rw [evaluate_ok_iff]
    simp only [polySum, List.length_cons, List.length_nil, Finset.sum_range_succ,
      Finset.sum_range_zero, List.getD_cons_zero, List.getD_cons_succ]
    norm_num
  have hd : evaluate [(-3 : ℚ), 2] 1 = Except.ok (-1) := by
    rw [evaluate_ok_iff]
    simp only [polySum, List.length_cons, List.length_nil, Finset.sum_range_succ,
      Finset.sum_range_zero, List.getD_cons_zero, List.getD_cons_succ]
    norm_num
  have htol : 0 < (Data.default : Data ℚ).acceptable_error := by
    simp only [Data.default]
    norm_num
  exact ⟨hf, hd, by norm_num, htol,
    (exact_root_is_fixed_point Data.default [(2 : ℚ), -3, 1] [-3, 2] 1 (-1) hf hd
      (by norm_num) htol).2.2.1⟩

/-- C13 (silent drop and discovery order): the list returned by `newton_method` is the
list of the per-guess final iterates, in guess order, from which exactly those are removed
whose tested residual is not below the tolerance or whose value equals an earlier accepted
root.  Hence it is a sublist of the per-guess results, it has at most as many elements as
there are guesses, it is empty for an empty guess list, and a value is returned exactly
when some guess ends on it with a tested residual below the tolerance. -/
theorem newton_method_keeps_accepted_in_order {R : Type} [LinearOrderedField R]
    (cfg : Data R) (f d guesses : List R) :
    ∃ r, newton_method cfg f d guesses = Except.ok r
      ∧ (∀ g, ∃ y dx, evaluate f g = Except.ok y ∧ evaluate d g = Except.ok dx
          ∧ newton_iterate f d cfg.max_iterations.toNat ⟨g, y, g - y / dx⟩
              = Except.ok (newton_candidate cfg f d g))
      ∧ r = keep_accepted cfg.acceptable_error [] (guesses.map (newton_candidate cfg f d))
      ∧ List.Sublist r (guesses.map (fun g => (newton_candidate cfg f d g).x))
      ∧ r.length ≤ guesses.length
      ∧ newton_method cfg f d [] = Except.ok []
      ∧ (∀ x, x ∈ r ↔ ∃ g ∈ guesses, (newton_candidate cfg f d g).x = x
          ∧ |(newton_candidate cfg f d g).y| < cfg.acceptable_error) := by
  have hr : guesses.foldl (newton_guess_val cfg f d) []
      = keep_accepted cfg.acceptable_error [] (guesses.map (newton_candidate cfg f d)) := by
    rw [foldl_guess_eq_keep, List.nil_append]
  have hsub := keep_accepted_sublist cfg.acceptable_error
    (guesses.map (newton_candidate cfg f d)) []
  rw [List.map_map] at hsub
  refine ⟨_, newton_method_eq cfg f d guesses, ?_, hr, ?_, ?_, rfl, ?_⟩
  · intro g
    exact ⟨_, _, evaluate_eq f g, evaluate_eq d g, newton_iterate_eq f d _ _⟩
  · rw [hr]
    exact hsub
  · rw [hr]
    simpa using hsub.length_le
  · intro x
    rw [hr]
    have h := mem_keep_accepted cfg.acceptable_error x
      (guesses.map (newton_candidate cfg f d)) []
    rw [List.nil_append] at h
    rw [h]
    constructor
    · rintro (h0 | ⟨c, hc, h1, h2⟩)
      · cases h0
      · obtain ⟨g, hg, rfl⟩ := List.mem_map.mp hc
        exact ⟨g, hg, h1, h2⟩
    · rintro ⟨g, hg, h1, h2⟩
      exact Or.inr ⟨_, List.mem_map_of_mem _ hg, h1, h2⟩

/-- C17 (root count bound): for a coefficient list of length `n + 1` with `n ≥ 1`,
`get_roots` returns at most `n` values; and for length at least 4 the derivative yields at
most `n − 1` extrema `E` and at most `len E + 1` roots are returned. -/
theorem get_roots_returns_at_most_degree_many {R : Type} [LinearOrderedField R]
    (sqrt : R → R) (cfg : Data R) (f : List R) (n : Nat) (hlen : f.length = n + 1)
    (hn : 1 ≤ n) :
    ∃ r, get_roots sqrt cfg f = Except.ok r ∧ r.length ≤ n
      ∧ (f.length = 2 → r.length ≤ 1) ∧ (f.length = 3 → r.length ≤ 2)
      ∧ (4 ≤ f.length → ∃ d E, derivative f = Except.ok d
          ∧ get_roots sqrt cfg d = Except.ok E ∧ E.length ≤ n - 1
          ∧ r.length ≤ E.length + 1 ∧ E.length + 1 ≤ n) := by
  obtain ⟨r, hr, hle⟩ := get_roots_length_le sqrt cfg n f hlen hn
  refine ⟨r, hr, hle, by omega, by omega, ?_⟩
  intro h4
  have hdl := derivative_length f _ (derivative_eq f)
  obtain ⟨E, hE, hEle⟩ := get_roots_length_le sqrt cfg (n - 1) _ (by rw [hdl]; omega)
    (by omega)
  refine ⟨_, E, derivative_eq f, hE, hEle, ?_, by omega⟩
  rw [get_roots_high_seeds sqrt cfg f _ E (derivative_eq f) h4 hE] at hr
  obtain ⟨r2, hr2, hr2le⟩ := newton_method_length_le cfg f
    (List.map (fun j => ((j + 1 : ℕ) : R) * f.getD (j + 1) 0) (List.range (f.length - 1)))
    (seeds_spec E)
  rw [hr] at hr2
  cases hr2
  have := (seeds_spec_length_le E).1
  omega

/-- Witness for C17: the cubic `x³ − x` over `ℚ`, of length `3 + 1`. -/
theorem get_roots_returns_at_most_degree_many_witness :
    [(0 : ℚ), -1, 0, 1].length = 3 + 1 ∧ 1 ≤ 3
    ∧ ∃ r, get_roots Rat.sqrt Data.default [(0 : ℚ), -1, 0, 1] = Except.ok r
        ∧ r.length ≤ 3 :=
  ⟨rfl, by decide,
    (get_roots_returns_at_most_degree_many Rat.sqrt Data.default [(0 : ℚ), -1, 0, 1] 3 rfl
      (by decide)).imp (fun _ h => ⟨h.1, h.2.1⟩)⟩

/-- C14 (termination and recursion depth): `get_roots` returns on every coefficient list;
the recursive call is made on `derivative f`, whose length is one less than that of `f`;
the number of nested `get_roots` calls is `len f − 3`, hence at most the degree
`len f − 1`; and the Newton loop runs at most as many times as its counter allows, in
particular at most `max_iterations` times for every guess. -/
theorem get_roots_terminates_within_degree {R : Type} [LinearOrderedField R]
    (sqrt : R → R) (cfg : Data R) (f d : List R) (n : Nat) (s : NewtonState R) (g : R) :
    (∃ r, get_roots sqrt cfg f = Except.ok r)
    ∧ (∃ d1, derivative f = Except.ok d1 ∧ d1.length = f.length - 1
        ∧ (f = [] ∨ d1.length + 1 = f.length)
        ∧ get_roots_depth d1 = d1.length - 3)
    ∧ get_roots_depth f = f.length - 3
    ∧ get_roots_depth f ≤ f.length - 1
    ∧ newton_iterate_count f d n s ≤ n
    ∧ newton_iterate f d n s = newton_iterate f d (newton_iterate_count f d n s) s
    ∧ (∃ s1, newton_iterate f d n s = Except.ok s1)
    ∧ newton_iterate_count f d cfg.max_iterations.toNat
        ⟨g, polySum f g, g - polySum f g / polySum d g⟩ ≤ cfg.max_iterations.toNat := by
  have hdl := derivative_length f _ (derivative_eq f)
  refine ⟨get_roots_ok sqrt cfg f.length f (le_refl _),
    ⟨_, derivative_eq f, hdl, ?_, get_roots_depth_eq _ _ rfl⟩,
    get_roots_depth_eq _ f rfl, ?_, newton_iterate_count_le f d n s, ?_,
    ⟨_, newton_iterate_eq f d n s⟩, newton_iterate_count_le f d _ _⟩
  · cases f with
    | nil => exact Or.inl rfl
    | cons a t =>
      right
      rw [hdl]
      simp
  · rw [get_roots_depth_eq _ f rfl]
    omega
  · rw [newton_iterate_eq, newton_iterate_eq, ← newton_iterate_val_count]

/-- C15 (Newton iteration per guess): with Newton's sequence `x_0 = g`,
`x_{j+1} = x_j − evaluate f x_j / evaluate d x_j`, and `N` the iteration cap, there is
`m ≤ N`, the least index with `evaluate f x_m = 0` if there is one up to `N` and `N`
otherwise, such that the loop runs exactly `m` times, ends with `lastx = x_m`,
`y = evaluate f x_m` and `x = x_{m+1}`, and the value pushed if accepted is `x_{m+1}` while
the value compared with the tolerance is `evaluate f x_m`. -/
theorem newton_guess_follows_newton_sequence {R : Type} [LinearOrderedField R]
    (cfg : Data R) (f d roots : List R) (g : R) :
    newton_seq f d g 0 = g
    ∧ (∀ j, ∃ yj dj, evaluate f (newton_seq f d g j) = Except.ok yj
        ∧ evaluate d (newton_seq f d g j) = Except.ok dj
        ∧ newton_seq f d g (j + 1) = newton_seq f d g j - yj / dj)
    ∧ ∃ m, m ≤ cfg.max_iterations.toNat
      ∧ (∀ j, j < m → evaluate f (newton_seq f d g j) ≠ Except.ok 0)
      ∧ (m = cfg.max_iterations.toNat ∨ evaluate f (newton_seq f d g m) = Except.ok 0)
      ∧ ∃ y0 d0 ym, evaluate f g = Except.ok y0 ∧ evaluate d g = Except.ok d0
        ∧ evaluate f (newton_seq f d g m) = Except.ok ym
        ∧ newton_iterate_count f d cfg.max_iterations.toNat ⟨g, y0, g - y0 / d0⟩ = m
        ∧ newton_iterate f d cfg.max_iterations.toNat ⟨g, y0, g - y0 / d0⟩
            = Except.ok ⟨newton_seq f d g m, ym, newton_seq f d g (m + 1)⟩
        ∧ newton_guess cfg f d roots g
            = Except.ok (if newton_seq f d g (m + 1) ∉ roots ∧ |ym| < cfg.acceptable_error
                then roots ++ [newton_seq f d g (m + 1)] else roots) := by
  obtain ⟨h1, h2, h3⟩ := newton_iterate_val_seq f d g cfg.max_iterations.toNat 0
  simp only [Nat.zero_add] at h1 h2 h3
  have hinit : (⟨g, polySum f g, g - polySum f g / polySum d g⟩ : NewtonState R)
      = newton_seq_state f d g 0 := rfl
  refine ⟨rfl, ?_, newton_iterate_count f d cfg.max_iterations.toNat
    (newton_seq_state f d g 0), newton_iterate_count_le f d _ _, ?_, ?_, ?_⟩
  · intro j
    exact ⟨_, _, evaluate_eq f _, evaluate_eq d _, rfl⟩
  · intro j hj hev
    exact h2 j hj ((evaluate_ok_iff f _ 0).mp hev)
  · rcases h3 with h3 | h3
    · exact Or.inl h3
    · exact Or.inr ((evaluate_ok_iff f _ 0).mpr h3)
  · refine ⟨_, _, _, evaluate_eq f g, evaluate_eq d g, evaluate_eq f _, ?_, ?_, ?_⟩
    · rw [hinit]
    · rw [newton_iterate_eq, hinit, h1]
      rfl
    · rw [newton_guess_eq, newton_guess_val_eq_candidate]
      have hc : newton_candidate cfg f d g
          = newton_seq_state f d g (newton_iterate_count f d cfg.max_iterations.toNat
              (newton_seq_state f d g 0)) := h1
      rw [hc]
      rfl

/-- C16 (normalization is preserved through the recursion): for `f` of length at least 2
with non-zero last coefficient, `derivative f` has one coefficient less and a non-zero
last coefficient; so every polynomial on which `get_roots` is called while solving `f`
has a non-zero last coefficient, and the divisors `a1` of the linear case and `2·a2` of the
quadratic case are non-zero. -/
theorem derivative_preserves_normalization {R : Type} [LinearOrderedField R] (f : List R)
    (h2 : 2 ≤ f.length) (hlast : ∀ h : f ≠ [], f.getLast h ≠ 0) :
    (∃ d, derivative f = Except.ok d ∧ d.length + 1 = f.length
        ∧ ∃ hd : d ≠ [], d.getLast hd ≠ 0)
    ∧ ∀ g, Reached f g →
        (∀ hg : g ≠ [], g.getLast hg ≠ 0)
        ∧ (∀ a0 a1, g = [a0, a1] → a1 ≠ 0)
        ∧ (∀ a0 a1 a2, g = [a0, a1, a2] → 2 * a2 ≠ 0) := by
  constructor
  · have hdl := derivative_length f _ (derivative_eq f)
    have hne : List.map (fun j => ((j + 1 : ℕ) : R) * f.getD (j + 1) 0)
        (List.range (f.length - 1)) ≠ [] := by
      intro h0
      rw [h0] at hdl
      simp at hdl
      omega
    exact ⟨_, derivative_eq f, by rw [hdl]; omega, hne,
      derivative_getLast_ne_zero f _ (derivative_eq f) h2 hlast hne⟩
  · intro g hg
    have hn := reached_normalized f hlast g hg
    refine ⟨hn, ?_, ?_⟩
    · intro a0 a1 he
      subst he
      simpa using hn (by simp)
    · intro a0 a1 a2 he
      subst he
      have : a2 ≠ 0 := by simpa using hn (by simp)
      exact mul_ne_zero two_ne_zero this

/-- Witness for C16: the cubic `x³ − x` over `ℚ`, whose derivative `[-1, 0, 3]` is reached
by the recursion. -/
theorem derivative_preserves_normalization_witness :
    2 ≤ [(0 : ℚ), -1, 0, 1].length
    ∧ (∀ h : [(0 : ℚ), -1, 0, 1] ≠ [], [(0 : ℚ), -1, 0, 1].getLast h ≠ 0)
    ∧ ∃ d, derivative [(0 : ℚ), -1, 0, 1] = Except.ok d ∧ d.length + 1 = 4
        ∧ ∃ hd : d ≠ [], d.getLast hd ≠ 0 :=
  ⟨by decide, fun _ => by norm_num,
    (derivative_preserves_normalization [(0 : ℚ), -1, 0, 1] (by decide)
      (fun _ => by norm_num)).1⟩

end Claims


end NewtonsMethod
